import Mathlib

/-!
Verification model of the bitcast-ru storage engine.

The development shallowly embeds the core of the engine:
byte-level record codec (src/data/log_record.rs, src/data/data_file.rs),
the in-memory keydir and its snapshot iterator (src/index/btree.rs),
the append/rotation path, point reads, deletes and replay (src/db.rs),
and the write batch (src/batch.rs).

Bytes are modelled as `Nat` (file contents only ever hold values < 256);
machine-integer overflow is irrelevant on every path modelled here except
where noted (varint decoding), where the source's bound checks are
reproduced explicitly.
-/

namespace Bitcast

set_option synthInstance.maxSize 4096
set_option maxRecDepth 40000

/-- Error kinds, from src/error.rs (`Errors`). String payloads of the
I/O carriers are dropped: the positional-read collaborator of the model
is total, so those variants are never produced. The last three variants
are referenced by src/db.rs and src/batch.rs but missing from the
snapshot's error.rs revision; modelled from the spec's error list
(`EncodingError`, `DecodingError` — varint framing failure) and from
`Engine::open`'s session-id initialisation failure. -/
inductive Errors where
  | FailToReadFromDataFile
  | FailToSyncDataFile
  | FailToWriteToDataFile
  | FailToOpenDataFile
  | FailToCloseDataFile
  | EmptyKey
  | FailToUpdateIndex
  | KeyNotFound
  | LoadIndexFailed
  | DataFileNotFound
  | InvalidDatabasePath
  | DatafileSizeTooSmall
  | FailToCreateDatabaseDirectory
  | FailToReadDatabaseDirectory
  | DatabaseFileCorrupted
  | ReadEOF
  | ExceedBatchMaxSize
  | EncodingError
  | DecodingError
  | InitializeFailed
  deriving DecidableEq, Repr

/-- Decidable equality for `Except`, needed to evaluate model results
on concrete inputs. -/
instance {e a : Type} [DecidableEq e] [DecidableEq a] : DecidableEq (Except e a) := fun x y =>
  match x, y with
  | .error u, .error v =>
    if h : u = v then isTrue (by rw [h]) else isFalse (by intro hh; cases hh; exact h rfl)
  | .ok u, .ok v =>
    if h : u = v then isTrue (by rw [h]) else isFalse (by intro hh; cases hh; exact h rfl)
  | .error _, .ok _ => isFalse (by intro hh; cases hh)
  | .ok _, .error _ => isFalse (by intro hh; cases hh)

/-- Lexicographic comparison of byte strings, as Rust's `Ord` on `[u8]`
(elementwise, a strict proper initial segment is smaller). -/
def cmpBytes : List Nat → List Nat → Ordering
  | [], [] => .eq
  | [], _ :: _ => .lt
  | _ :: _, [] => .gt
  | a :: as, b :: bs =>
    if a < b then .lt else if b < a then .gt else cmpBytes as bs

/-- Fueled worker of the LEB128 varint encoder. The source encodes a
`u64`, which needs at most 10 seven-bit groups, so fuel 10 makes the
recursion structural without changing the function on its domain. -/
def varintEncodeGo : Nat → Nat → List Nat
  | 0, n => [n % 128]
  | fuel + 1, n =>
    if n < 128 then [n] else (n % 128 + 128) :: varintEncodeGo fuel (n / 128)

/-- LEB128 varint encoding of an unsigned integer, as prost's
`encode_length_delimiter` writes it (7-bit groups, MSB continuation). -/
def varintEncode (n : Nat) : List Nat := varintEncodeGo 10 n

/-- Byte length of the varint encoding of `n`, as prost's
`length_delimiter_len`. -/
def lengthDelimiterLen (n : Nat) : Nat := (varintEncode n).length

/-- Worker loop of prost's `decode_varint`: `count` bytes already
consumed; fails once 10 bytes were consumed without a terminator, on
buffer exhaustion, or when a 10-byte varint overflows `u64` (final byte
at position 9 with value at least 2). Success accumulation matches the
`value |= (byte & 0x7f) << (7 * count)` of the source: the 7-bit groups
are disjoint, so the bitwise-or is plain addition. -/
def decodeVarintGo : List Nat → Nat → Nat → Option (Nat × List Nat)
  | [], _, _ => none
  | b :: rest, acc, count =>
    if count ≥ 10 then none
    else
      let acc' := acc + b % 128 * 2 ^ (7 * count)
      if b % 256 < 128 then
        if count = 9 ∧ b % 256 ≥ 2 then none else some (acc', rest)
      else decodeVarintGo rest acc' (count + 1)

/-- Varint decoding, as prost's `decode_varint` / `decode_length_delimiter`
over an in-memory buffer (the `usize` narrowing is the identity on a
64-bit target). Returns the decoded value and the unconsumed remainder. -/
def decodeVarint (buf : List Nat) : Option (Nat × List Nat) :=
  decodeVarintGo buf 0 0

/-- Positional read of `n` bytes at `off` into a zero-initialised buffer:
the model of `pread` on a regular file as `DataFile::read_log_record`
uses it (the source ignores the returned count, so bytes past
end-of-file stay zero). -/
def readPad (file : List Nat) (off n : Nat) : List Nat :=
  (file.drop off ++ List.replicate n 0).take n

/-- Little-endian serialisation of a 32-bit word, as `put_u32_le`. -/
def le32Encode (n : Nat) : List Nat :=
  [n % 256, n / 256 % 256, n / 256 ^ 2 % 256, n / 256 ^ 3 % 256]

/-- Little-endian deserialisation of 4 bytes, as `u32::from_le_bytes`
(the source unwraps a slice of exactly 4 bytes; shorter input reads as
zero-padded). -/
def le32Decode : List Nat → Nat
  | a :: b :: c :: d :: _ =>
    a % 256 + b % 256 * 256 + c % 256 * 256 ^ 2 + d % 256 * 256 ^ 3
  | _ => 0

/-- Single step of the reflected CRC-32 bit loop (polynomial
`0xEDB88320`), as the table-free definition of the IEEE CRC used by
`crc32fast::hash`. -/
def crc32Step (c : Nat) : Nat :=
  if c % 2 = 1 then Nat.xor (c / 2) 0xEDB88320 else c / 2

/-- Folds one input byte into the running CRC state. -/
def crc32Byte (c b : Nat) : Nat :=
  crc32Step^[8] (Nat.xor c (b % 256))

/-- IEEE CRC-32 of a byte string, as `crc32fast::hash`. -/
def crc32 (data : List Nat) : Nat :=
  Nat.xor (data.foldl crc32Byte 0xFFFFFFFF) 0xFFFFFFFF

/-- Record location, from src/data/log_record.rs (`LogRecordPos`). -/
structure LogRecordPos where
  fileId : Nat
  offset : Nat
  deriving DecidableEq, Repr

/-- Model of `BTreeMap<Vec<u8>, LogRecordPos>` (the `BTreeIndexer` tree,
src/index/btree.rs): an association list kept strictly sorted by key,
the canonical representation of the map held by the B-tree. -/
abbrev Keydir : Type := List (List Nat × LogRecordPos)

/-- Sortedness invariant of the keydir representation. -/
def kdSorted (kd : Keydir) : Prop :=
  List.Pairwise (fun a b => cmpBytes a.1 b.1 = .lt) kd

/-- Unconditional insert/overwrite, as `BTreeIndexer::put` (which always
returns `true`). -/
def kdPut : Keydir → List Nat → LogRecordPos → Keydir
  | [], k, p => [(k, p)]
  | (k2, p2) :: rest, k, p =>
    match cmpBytes k k2 with
    | .lt => (k, p) :: (k2, p2) :: rest
    | .eq => (k, p) :: rest
    | .gt => (k2, p2) :: kdPut rest k p

/-- Lookup, as `BTreeIndexer::get`. -/
def kdGet : Keydir → List Nat → Option LogRecordPos
  | [], _ => none
  | (k2, p2) :: rest, k => if k = k2 then some p2 else kdGet rest k

/-- Removal, as the map mutation of `BTreeIndexer::delete`; the
source's returned boolean (`remove(..).is_some()`) is
`(kdGet kd k).isSome`. -/
def kdDelete : Keydir → List Nat → Keydir
  | [], _ => []
  | (k2, p2) :: rest, k => if k = k2 then rest else (k2, p2) :: kdDelete rest k

/-- Iterator options, from src/options.rs (`IndexIteratorOptions`);
`pfx` models the `prefix` field. -/
structure IndexIteratorOptions where
  pfx : List Nat
  reverse : Bool
  deriving DecidableEq, Repr

/-- Snapshot materialisation of `BTreeIndexer::iterator`: the tree's
entries in ascending key order, filtered by the option's key byte
filter, reversed when `reverse` is set. -/
def iteratorItems (kd : Keydir) (options : IndexIteratorOptions) :
    List (List Nat × LogRecordPos) :=
  let items := kd.filter (fun e => options.pfx.isPrefixOf e.1)
  if options.reverse then items.reverse else items

/-- Snapshot iterator state, from src/index/btree.rs
(`BtreeIndexIterator`). -/
structure BtreeIndexIterator where
  items : List (List Nat × LogRecordPos)
  pos : Nat
  options : IndexIteratorOptions
  deriving DecidableEq, Repr

/-- Creation of the snapshot iterator (`BTreeIndexer::iterator`). -/
def mkIterator (kd : Keydir) (options : IndexIteratorOptions) : BtreeIndexIterator :=
  { items := iteratorItems kd options, pos := 0, options := options }

/-- Fueled worker of Rust's `slice::binary_search_by` loop; fuel
`right - left` suffices, making the recursion structural. Both the
`Ok(mid)` early return (comparator `eq`) and the final `Err(left)`
collapse to the index, which is all `seek` uses. -/
def bsGo (f : List Nat × LogRecordPos → Ordering)
    (items : List (List Nat × LogRecordPos)) : Nat → Nat → Nat → Nat
  | 0, left, _ => left
  | fuel + 1, left, right =>
    if left < right then
      let mid := left + (right - left) / 2
      match f (items.getD mid ([], ⟨0, 0⟩)) with
      | .lt => bsGo f items fuel (mid + 1) right
      | .gt => bsGo f items fuel left mid
      | .eq => mid
    else left

/-- Index produced by `items.binary_search_by(f)` with `Ok`/`Err`
collapsed, as `BtreeIndexIterator::seek` consumes it. -/
def binarySearchPos (f : List Nat × LogRecordPos → Ordering)
    (items : List (List Nat × LogRecordPos)) : Nat :=
  bsGo f items items.length 0 items.length

/-- Seek, from `BtreeIndexIterator::seek`: binary search with the key
comparator, reversed when iterating in reverse. -/
def BtreeIndexIterator.seek (it : BtreeIndexIterator) (key : List Nat) :
    BtreeIndexIterator :=
  let f := fun (x : List Nat × LogRecordPos) =>
    let order := cmpBytes x.1 key
    if it.options.reverse then order.swap else order
  { it with pos := binarySearchPos f it.items }

/-- Rewind, from `BtreeIndexIterator::rewind`. -/
def BtreeIndexIterator.rewind (it : BtreeIndexIterator) : BtreeIndexIterator :=
  { it with pos := 0 }

/-- One iteration step, from `BtreeIndexIterator::next`: yields the
current element and advances. -/
def BtreeIndexIterator.next (it : BtreeIndexIterator) :
    Option ((List Nat × LogRecordPos) × BtreeIndexIterator) :=
  if it.pos ≥ it.items.length then none
  else some (it.items.getD it.pos ([], ⟨0, 0⟩), { it with pos := it.pos + 1 })

/-- Fueled exhaustion of the iterator through successive `next` calls. -/
def iterCollectGo : Nat → BtreeIndexIterator → List (List Nat × LogRecordPos)
  | 0, _ => []
  | fuel + 1, it =>
    match it.next with
    | none => []
    | some (x, it2) => x :: iterCollectGo fuel it2

/-- Every element the iterator yields from its current position until
`next` returns `none`. -/
def BtreeIndexIterator.collect (it : BtreeIndexIterator) :
    List (List Nat × LogRecordPos) :=
  iterCollectGo (it.items.length - it.pos) it

/-- Numeric rank of a comparator outcome, to state monotonicity along a
sorted snapshot. -/
def ordRank : Ordering → Nat
  | .lt => 0
  | .eq => 1
  | .gt => 2

namespace Codec

/-- Record kinds of the on-disk codec, from src/data/log_record.rs
(`LogRecordType`, wire values 1 and 2). -/
inductive LogRecordType where
  | NORAML
  | DELETED
  deriving DecidableEq, Repr

/-- Wire value of a record kind (`LogRecordType as u8`). -/
def LogRecordType.toU8 : LogRecordType → Nat
  | .NORAML => 1
  | .DELETED => 2

/-- Decoding of a type byte, from `LogRecordType::from_u8`. The source
hits `unreachable!()` on any other byte; `none` models that panic. -/
def LogRecordType.fromU8 (v : Nat) : Option LogRecordType :=
  if v = 1 then some .NORAML else if v = 2 then some .DELETED else none

/-- One log record, from src/data/log_record.rs (`LogRecord`). -/
structure LogRecord where
  key : List Nat
  value : List Nat
  recordType : LogRecordType
  deriving DecidableEq, Repr

/-- CRC-covered byte prefix of an encoded record:
`[type][key_size varint][value_size varint][key][value]`, as built by
`LogRecord::encode_and_crc` before the CRC word is appended. -/
def LogRecord.encodeBody (r : LogRecord) : List Nat :=
  r.recordType.toU8 ::
    (varintEncode r.key.length ++ varintEncode r.value.length ++ r.key ++ r.value)

/-- CRC-32 of the encoded prefix, as `LogRecord::get_crc`. -/
def LogRecord.getCrc (r : LogRecord) : Nat := crc32 r.encodeBody

/-- Full encoding, as `LogRecord::encode`: body followed by the CRC word
in little-endian. -/
def LogRecord.encode (r : LogRecord) : List Nat :=
  r.encodeBody ++ le32Encode r.getCrc

/-- Size of the trailing CRC word (`LOG_CRC_SIZE`). -/
def LOG_CRC_SIZE : Nat := 4

/-- Size of the leading type byte (`LOG_TYPE_FLAG_SIZE`). -/
def LOG_TYPE_FLAG_SIZE : Nat := 1

/-- Header prefetch size, from `log_record_max_size()`:
`1 + 2 · length_delimiter_len(u32::MAX) + 4 = 15`. -/
def logRecordMaxSize : Nat :=
  LOG_TYPE_FLAG_SIZE + lengthDelimiterLen (2 ^ 32 - 1) * 2 + LOG_CRC_SIZE

/-- Result of a framed read, from `ReadLogRecord`. -/
structure ReadLogRecord where
  record : LogRecord
  size : Nat
  deriving DecidableEq, Repr

/-- Framed read of one record at `off`, from `DataFile::read_log_record`
over the positional-read collaborator (src/data/data_file.rs lines
60–113), on a 64-bit target where the decoded `usize` sizes range over
all of `u64`. The outer `Option` models panics; `none` arises in two
places, in the source's evaluation order:
- when `key_size + value_size + LOG_CRC_SIZE` overflows `usize`
  (line 80): a debug build panics at the addition, and a release build
  wraps the allocation length so that one of the two
  `kv_buffer.get(..).unwrap()` slice reads (lines 86–90) fails — if
  `value_size < 2^64 - 4` the key slice end exceeds the wrapped buffer
  length, and otherwise the value slice's wrapped end falls below its
  start — so both profiles panic before `from_u8` is reached;
- when the type byte is outside {1, 2} (`LogRecordType::from_u8` hits
  `unreachable!()`, line 91), evaluated after the two slice reads.
Without overflow the buffer has length exactly
`key_size + value_size + LOG_CRC_SIZE`, every slice is in range, and
the unwraps cannot fail. The returned `size` reproduces the release
build's wrapping `usize` addition (line 93); in the 21-byte-wide band
where only the header-included sum overflows, a debug build would also
panic — the model follows release. Allocation itself is modelled total,
as is the positional read. -/
def readLogRecord (file : List Nat) (off : Nat) : Option (Except Errors ReadLogRecord) :=
  let hdr := readPad file off logRecordMaxSize
  let recordTypeByte := hdr.headD 0
  match decodeVarint (hdr.drop 1) with
  | none => some (.error .DatabaseFileCorrupted)
  | some (keySize, buf2) =>
    match decodeVarint buf2 with
    | none => some (.error .DatabaseFileCorrupted)
    | some (valueSize, _) =>
      if keySize = 0 ∧ valueSize = 0 then some (.error .ReadEOF)
      else if 2 ^ 64 ≤ keySize + valueSize + LOG_CRC_SIZE then none
      else
        let actualHeaderSize :=
          LOG_TYPE_FLAG_SIZE + lengthDelimiterLen keySize + lengthDelimiterLen valueSize
        let kvBuffer := readPad file (off + actualHeaderSize) (keySize + valueSize + LOG_CRC_SIZE)
        match LogRecordType.fromU8 recordTypeByte with
        | none => none
        | some rt =>
          let record : LogRecord :=
            { key := kvBuffer.take keySize
              value := (kvBuffer.drop keySize).take valueSize
              recordType := rt }
          let expectCrc := le32Decode (kvBuffer.drop (keySize + valueSize))
          if expectCrc ≠ record.getCrc then some (.error .DatabaseFileCorrupted)
          else some (.ok { record := record
                           size := (actualHeaderSize + keySize + valueSize + LOG_CRC_SIZE)
                             % 2 ^ 64 })

end Codec

namespace Db

/-- Record kinds of the engine layer, as matched by src/db.rs and
src/batch.rs (`LogRecordType::{Normal, Deleted, BatchCommit}`).
Modelled from the spec: the enum's own declaration is absent from this
src snapshot (src/data/log_record.rs holds an older two-variant
revision), so the variant set is taken from the spec's data model and
the match arms in db.rs/batch.rs; the wire byte of `BatchCommit` is
chosen as 3 (only encoded length matters to the claims using it). -/
inductive LogRecordType where
  | Normal
  | Deleted
  | BatchCommit
  deriving DecidableEq, Repr

/-- Wire value of an engine-layer record kind. -/
def LogRecordType.toU8 : LogRecordType → Nat
  | .Normal => 1
  | .Deleted => 2
  | .BatchCommit => 3

/-- Engine-layer log record (the `LogRecord` value db.rs and batch.rs
construct and append). -/
structure LogRecord where
  key : List Nat
  value : List Nat
  recordType : LogRecordType
  deriving DecidableEq, Repr

/-- Encoding of an engine-layer record, with the same layout as the
codec (`LogRecord::encode`): body then little-endian CRC-32 of it. -/
def LogRecord.encode (r : LogRecord) : List Nat :=
  let body := r.recordType.toU8 ::
    (varintEncode r.key.length ++ varintEncode r.value.length ++ r.key ++ r.value)
  body ++ le32Encode (crc32 body)

/-- Session byte string tagging non-batched writes, the value of
src/batch.rs's `NON_TXN_PREFIX` constant ("non_txn"). -/
def NON_TXN : List Nat := [110, 111, 110, 95, 116, 120, 110]

/-- Sentinel user key carried by a batch terminator record, the value
of src/batch.rs's `TXN_FIN_PREFIX` constant — the bytes of
"txn_fin_prefix" (14 bytes), not of "txn_fin". -/
def TXN_FIN : List Nat :=
  [116, 120, 110, 95, 102, 105, 110, 95, 112, 114, 101, 102, 105, 120]

/-- Key framing, from `log_record_key_with_sequence`:
`[varint(len p)] [p] [varint(seq_id)] [user key]` where `p` is the
session byte string. The source's error path cannot fire
(`encode_length_delimiter` into a growable buffer never fails), so the
model is total. -/
def logRecordKeyWithSequence (key p : List Nat) (seqId : Nat) : List Nat :=
  varintEncode p.length ++ p ++ varintEncode seqId ++ key

/-- Parsed framed key, from `LogRecordKey` (field `pfx` models the
source's session-bytes field). -/
structure LogRecordKey where
  pfx : List Nat
  seqId : Nat
  key : List Nat
  deriving DecidableEq, Repr

/-- Framed-key parsing, from `log_record_key_parse`: decode the session
length, split it off (`split_to` panics — modelled `none` — when the
length runs past the buffer), decode the sequence id, keep the rest as
the user key. -/
def logRecordKeyParse (key : List Nat) : Option (Except Errors LogRecordKey) :=
  match decodeVarint key with
  | none => some (.error .DecodingError)
  | some (n, rest) =>
    if n > rest.length then none
    else
      match decodeVarint (rest.drop n) with
      | none => some (.error .DecodingError)
      | some (seqId, rest2) => some (.ok { pfx := rest.take n, seqId := seqId, key := rest2 })

/-- Rotation-and-append state of the engine: the active segment's id
and write cursor plus the sealed (immutable) segments with their final
cursors, from the `active_file` / `old_files` fields of `Engine`. -/
structure AppendState where
  activeFileId : Nat
  activeOffset : Nat
  oldFiles : List (Nat × Nat)
  deriving DecidableEq, Repr

/-- Append with rotation, from `Engine::append_log_record`
(src/db.rs lines 153–177): encode; if the cursor plus the encoded
length would pass the configured segment size, sync and seal the active
segment into the immutable map and install a fresh one with the next
file id; then write at the cursor and return the record's position.
The I/O collaborator's write is total here. -/
def appendLogRecord (datafileSize : Nat) (st : AppendState) (record : LogRecord) :
    AppendState × LogRecordPos :=
  let encodeLog := record.encode
  let st1 :=
    if st.activeOffset + encodeLog.length > datafileSize then
      { activeFileId := st.activeFileId + 1
        activeOffset := 0
        oldFiles := st.oldFiles ++ [(st.activeFileId, st.activeOffset)] }
    else st
  let pos : LogRecordPos := { fileId := st1.activeFileId, offset := st1.activeOffset }
  ({ st1 with activeOffset := st1.activeOffset + encodeLog.length }, pos)

/-- Segment-file lookup of `get_by_position`: active and immutable
segments united into one id-indexed map (the source distinguishes them
only to pick the handle; a missing id yields `DataFileNotFound`). -/
def fileLookup : List (Nat × List Nat) → Nat → Option (List Nat)
  | [], _ => none
  | (fid, bytes) :: rest, i => if i = fid then some bytes else fileLookup rest i

/-- Read view of the engine for point reads: the keydir plus the raw
bytes of every segment, from the `indexer` / `active_file` /
`old_files` fields of `Engine`. -/
structure EngineView where
  keydir : Keydir
  files : List (Nat × List Nat)
  deriving DecidableEq, Repr

/-- Point read, from `Engine::get` and `Engine::get_by_position`
(src/db.rs lines 104–139): empty keys are rejected, the keydir is
consulted, the record is read back from the segment bytes at the mapped
location, and a `Deleted` record reads as `KeyNotFound`. The outer
`Option` propagates the codec's panic case. -/
def EngineView.get (eng : EngineView) (key : List Nat) :
    Option (Except Errors (List Nat)) :=
  if key = [] then some (.error .EmptyKey)
  else
    match kdGet eng.keydir key with
    | none => some (.error .KeyNotFound)
    | some pos =>
      match fileLookup eng.files pos.fileId with
      | none => some (.error .DataFileNotFound)
      | some bytes =>
        match Codec.readLogRecord bytes pos.offset with
        | none => none
        | some (.error e) => some (.error e)
        | some (.ok rr) =>
          if rr.record.recordType = Codec.LogRecordType.DELETED then
            some (.error .KeyNotFound)
          else some (.ok rr.record.value)

/-- Staging-map lookup, modelling `HashMap<Vec<u8>, LogRecord>` access
(keys are unique, so first match is the only match). -/
def mapLookup : List (List Nat × LogRecord) → List Nat → Option LogRecord
  | [], _ => none
  | (k2, r) :: rest, k => if k = k2 then some r else mapLookup rest k

/-- Staging-map insert/overwrite (`HashMap::insert` /
`Entry::or_insert`): replaces the existing entry in place or appends. -/
def mapInsert : List (List Nat × LogRecord) → List Nat → LogRecord →
    List (List Nat × LogRecord)
  | [], k, r => [(k, r)]
  | (k2, r2) :: rest, k, r =>
    if k = k2 then (k, r) :: rest else (k2, r2) :: mapInsert rest k r

/-- Staging-map removal (`HashMap::remove`). -/
def mapRemove : List (List Nat × LogRecord) → List Nat →
    List (List Nat × LogRecord)
  | [], _ => []
  | (k2, r2) :: rest, k => if k = k2 then rest else (k2, r2) :: mapRemove rest k

/-- Record-level engine state for the write path and recovery: the
keydir, the append/rotation state, the journal of every appended record
at the position `append_log_record` returned for it, the session byte
string and the batch counter. The journal abstracts the segment bytes
at record granularity; the byte layer is related to it by the codec
round trip (`readLogRecord_encode`). -/
structure Engine where
  keydir : Keydir
  st : AppendState
  journal : List (LogRecord × LogRecordPos)
  batchPfx : List Nat
  batchCommitId : Nat
  datafileSize : Nat
  deriving DecidableEq, Repr

/-- Journal read-back at a position (the record-level counterpart of
`get_by_position`). -/
def journalFind : List (LogRecord × LogRecordPos) → LogRecordPos → Option LogRecord
  | [], _ => none
  | (r, p) :: rest, pos => if pos = p then some r else journalFind rest pos

/-- Record-level `Engine::get`: reject the empty key, look the key up
in the keydir, read the record at the mapped location, report a
`Deleted` record as `KeyNotFound`, otherwise return the value. -/
def Engine.getModel (eng : Engine) (key : List Nat) : Except Errors (List Nat) :=
  if key = [] then .error .EmptyKey
  else
    match kdGet eng.keydir key with
    | none => .error .KeyNotFound
    | some pos =>
      match journalFind eng.journal pos with
      | none => .error .DataFileNotFound
      | some r => if r.recordType = .Deleted then .error .KeyNotFound else .ok r.value

/-- `Engine::put` (src/db.rs lines 85–102): frame the key with the
non-batch session bytes and sequence id 0, append a Normal record, map
the user key to its location (`BTreeIndexer::put` always succeeds). -/
def Engine.putOp (eng : Engine) (key value : List Nat) : Except Errors Engine :=
  if key = [] then .error .EmptyKey
  else
    let record : LogRecord :=
      { key := logRecordKeyWithSequence key NON_TXN 0, value := value, recordType := .Normal }
    let sp := appendLogRecord eng.datafileSize eng.st record
    .ok { eng with st := sp.1
                   journal := eng.journal ++ [(record, sp.2)]
                   keydir := kdPut eng.keydir key sp.2 }

/-- `Engine::delete` (src/db.rs lines 298–321): no-op on an unmapped
key; otherwise append a framed tombstone and remove the key from the
keydir (present, so the removal reports success). -/
def Engine.deleteOp (eng : Engine) (key : List Nat) : Except Errors Engine :=
  if key = [] then .error .EmptyKey
  else
    match kdGet eng.keydir key with
    | some _ =>
      let record : LogRecord :=
        { key := logRecordKeyWithSequence key NON_TXN 0, value := [], recordType := .Deleted }
      let sp := appendLogRecord eng.datafileSize eng.st record
      let eng2 : Engine :=
        { eng with st := sp.1, journal := eng.journal ++ [(record, sp.2)] }
      if (kdGet eng2.keydir key).isSome then
        .ok { eng2 with keydir := kdDelete eng2.keydir key }
      else .error .FailToUpdateIndex
    | none => .ok eng

/-- `WriteBatch::put` (src/batch.rs lines 38–53): stage a Normal record
under the user key. -/
def WriteBatch.putStage (staging : List (List Nat × LogRecord)) (key value : List Nat) :
    Except Errors (List (List Nat × LogRecord)) :=
  if key = [] then .error .EmptyKey
  else .ok (mapInsert staging key { key := key, value := value, recordType := .Normal })

/-- Entry manipulation of `WriteBatch::delete` after the liveness
probe: the `entry(..).or_insert(tombstone)` dance. An absent entry is
filled with a tombstone, which stays (the inserted record's type is
`Deleted`, not `Normal`); a staged `Normal` entry is removed and
replaced by a tombstone only when the engine saw the key live
(`hasKey`); a staged tombstone is left alone. -/
def deleteStageEntry (staging : List (List Nat × LogRecord)) (key : List Nat)
    (hasKey : Bool) : Except Errors (List (List Nat × LogRecord)) :=
  match mapLookup staging key with
  | none => .ok (mapInsert staging key { key := key, value := [], recordType := .Deleted })
  | some r =>
    if r.recordType = .Normal then
      let staging2 := mapRemove staging key
      .ok (if hasKey then
        mapInsert staging2 key { key := key, value := [], recordType := .Deleted }
      else staging2)
    else .ok staging

/-- `WriteBatch::delete` (src/batch.rs lines 55–95): reject the empty
key; probe the engine for liveness (`KeyNotFound` means not live, any
other error propagates); then manipulate the staged entry. -/
def WriteBatch.deleteStage (eng : Engine) (staging : List (List Nat × LogRecord))
    (key : List Nat) : Except Errors (List (List Nat × LogRecord)) :=
  if key = [] then .error .EmptyKey
  else
    match eng.getModel key with
    | .error e => if e = .KeyNotFound then deleteStageEntry staging key false else .error e
    | .ok _ => deleteStageEntry staging key true

/-- One member append of `WriteBatch::commit`'s `try_fold` (src/batch.rs
lines 111–123): frame the staged record's key with the session bytes
and the batch sequence id, append, and remember the position against
the original user key (the source keys its `record_pos` map by the
position; positions are distinct, so a list in append order carries the
same mapping). -/
def commitStep (p : List Nat) (seqId : Nat)
    (acc : Engine × List (LogRecordPos × List Nat)) (entry : List Nat × LogRecord) :
    Engine × List (LogRecordPos × List Nat) :=
  let record : LogRecord :=
    { key := logRecordKeyWithSequence entry.2.key p seqId
      value := entry.2.value
      recordType := entry.2.recordType }
  let sp := appendLogRecord acc.1.datafileSize acc.1.st record
  ({ acc.1 with st := sp.1, journal := acc.1.journal ++ [(record, sp.2)] },
    acc.2 ++ [(sp.2, entry.2.key)])

/-- `WriteBatch::commit` (src/batch.rs lines 97–144): empty batches
return at once; oversized batches fail with `ExceedBatchMaxSize`; the
sequence id is taken from the engine's counter (`fetch_add` returns the
previous value); the member records are appended, then the terminator;
finally `indexer.put(original_key, pos)` runs for every remembered
member — tombstones included — and the staging map is cleared (the
returned position list is the remembered `record_pos`). -/
def WriteBatch.commit (eng : Engine) (staging : List (List Nat × LogRecord))
    (maxBatchSize : Nat) : Except Errors (Engine × List (LogRecordPos × List Nat)) :=
  if staging = [] then .ok (eng, [])
  else if staging.length > maxBatchSize then .error .ExceedBatchMaxSize
  else
    let seqId := eng.batchCommitId
    let fold1 := staging.foldl (commitStep eng.batchPfx seqId) (eng, [])
    let fin : LogRecord :=
      { key := logRecordKeyWithSequence TXN_FIN eng.batchPfx seqId
        value := []
        recordType := .BatchCommit }
    let sp := appendLogRecord fold1.1.datafileSize fold1.1.st fin
    let eng2 : Engine :=
      { fold1.1 with st := sp.1, journal := fold1.1.journal ++ [(fin, sp.2)] }
    let kd2 := fold1.2.foldl (fun kd pk => kdPut kd pk.2 pk.1) eng2.keydir
    .ok ({ eng2 with keydir := kd2, batchCommitId := eng.batchCommitId + 1 }, fold1.2)

/-- One record of the recovery scan after key parsing: the framed key's
session bytes and sequence id, the user key, the record kind and the
record's position. -/
structure ParsedRecord where
  pfx : List Nat
  seqId : Nat
  key : List Nat
  rtype : LogRecordType
  pos : LogRecordPos
  deriving DecidableEq, Repr

/-- An entry of the recovery staging table: user key, position, kind —
the tuple `commit_tasks` accumulates. -/
abbrev PendingEntry : Type := List Nat × LogRecordPos × LogRecordType

/-- The recovery staging table `commit_tasks`, keyed by (session bytes,
sequence id). Access is by key only, so the hash map's iteration order
is irrelevant and an association list models it. -/
abbrev Pending : Type := List ((List Nat × Nat) × List PendingEntry)

def pendLookup : Pending → List Nat × Nat → Option (List PendingEntry)
  | [], _ => none
  | (ps2, l) :: rest, ps => if ps = ps2 then some l else pendLookup rest ps

/-- `commit_tasks.entry(key).or_default().push(e)`. -/
def pendPush : Pending → List Nat × Nat → PendingEntry → Pending
  | [], ps, e => [(ps, [e])]
  | (ps2, l) :: rest, ps, e =>
    if ps = ps2 then (ps2, l ++ [e]) :: rest else (ps2, l) :: pendPush rest ps e

/-- `commit_tasks.remove(&key)`: drops the entry. The table's keys are
unique (pushes update in place), so dropping every match is the hash
map's removal. -/
def pendRemove : Pending → List Nat × Nat → Pending
  | [], _ => []
  | (ps2, l) :: rest, ps =>
    if ps = ps2 then pendRemove rest ps else (ps2, l) :: pendRemove rest ps

/-- Application of a completed batch's staged entries to the keydir in
recorded order (the `try_for_each` under the `BatchCommit` arm,
src/db.rs lines 261–284): Normal puts (always succeeds), Deleted
removes — tolerantly, a missing key only logs a warning. Entries of
kind `BatchCommit` are never staged (see `replayStep`), so that arm of
the source (`unreachable!()`) is dead and the fold skips it. -/
def applyTask (kd : Keydir) (task : List PendingEntry) : Keydir :=
  task.foldl
    (fun kd e =>
      match e.2.2 with
      | .Normal => kdPut kd e.1 e.2.1
      | .Deleted => kdDelete kd e.1
      | .BatchCommit => kd)
    kd

/-- One record of the recovery scan (the match in
`Engine::load_index_from_data_files`, src/db.rs lines 220–286):
sequence id 0 applies directly — a Normal record puts, a Deleted record
must find the key or the scan fails with `FailToUpdateIndex`; batched
records are staged; a `BatchCommit` takes and applies its batch's
staged entries, failing with `DatabaseFileCorrupted` when none are
staged. -/
def replayStep (s : Keydir × Pending) (r : ParsedRecord) :
    Except Errors (Keydir × Pending) :=
  match r.rtype with
  | .Normal =>
    if r.seqId = 0 then .ok (kdPut s.1 r.key r.pos, s.2)
    else .ok (s.1, pendPush s.2 (r.pfx, r.seqId) (r.key, r.pos, .Normal))
  | .Deleted =>
    if r.seqId = 0 then
      if (kdGet s.1 r.key).isSome then .ok (kdDelete s.1 r.key, s.2)
      else .error .FailToUpdateIndex
    else .ok (s.1, pendPush s.2 (r.pfx, r.seqId) (r.key, r.pos, .Deleted))
  | .BatchCommit =>
    match pendLookup s.2 (r.pfx, r.seqId) with
    | none => .error .DatabaseFileCorrupted
    | some task => .ok (applyTask s.1 task, pendRemove s.2 (r.pfx, r.seqId))

/-- Worker of the recovery scan from an arbitrary state. -/
def replayGo : Keydir × Pending → List ParsedRecord → Except Errors (Keydir × Pending)
  | s, [] => .ok s
  | s, r :: rest =>
    match replayStep s r with
    | .error e => .error e
    | .ok s2 => replayGo s2 rest

/-- The recovery scan over the records of all segments in scan order,
starting from the empty keydir and empty staging table. -/
def replayScan (records : List ParsedRecord) : Except Errors (Keydir × Pending) :=
  replayGo ([], []) records

/-- Does a terminator for this (session bytes, sequence id) occur in
the record list? -/
def hasTerm (records : List ParsedRecord) (ps : List Nat × Nat) : Bool :=
  records.any (fun r => decide (r.rtype = .BatchCommit ∧ (r.pfx, r.seqId) = ps))

/-- Is this record a batch member (batched Normal or Deleted)? -/
def isMember (r : ParsedRecord) : Bool :=
  decide (r.seqId ≠ 0 ∧ r.rtype ≠ .BatchCommit)

/-- The record list with orphaned batch members removed: a member is
kept exactly when a terminator with its (session bytes, sequence id)
occurs later in the list. -/
def keepCommitted : List ParsedRecord → List ParsedRecord
  | [] => []
  | r :: rest =>
    if isMember r = true ∧ hasTerm rest (r.pfx, r.seqId) = false then keepCommitted rest
    else r :: keepCommitted rest

/-- The staged entries a scan of `records` would accumulate for key
`ps` on top of already-staged entries `acc`: reset by a terminator,
extended by members of that batch. -/
def msAfterAux (ps : List Nat × Nat) : List PendingEntry → List ParsedRecord →
    List PendingEntry
  | acc, [] => acc
  | acc, r :: rest =>
    if r.rtype = .BatchCommit ∧ (r.pfx, r.seqId) = ps then msAfterAux ps [] rest
    else if isMember r = true ∧ (r.pfx, r.seqId) = ps then
      msAfterAux ps (acc ++ [(r.key, r.pos, r.rtype)]) rest
    else msAfterAux ps acc rest

/-- Members of the batch `ps` occurring after its last terminator (all
its members when no terminator occurs): the orphans of `ps`. -/
def msAfter (records : List ParsedRecord) (ps : List Nat × Nat) : List PendingEntry :=
  msAfterAux ps [] records

/-- Empty-list-to-`none` view of a staged entry list, matching how the
pending table represents absence. -/
def listToOpt : List PendingEntry → Option (List PendingEntry)
  | [] => none
  | l => some l

/-- Key parsing of one appended record into a scan record (the
`log_record_key_parse` call at the head of the recovery loop's body,
src/db.rs lines 222–228): the outer `none` carries the parser's panic
case, the inner error its decoding failures. -/
def parseRecord (rp : LogRecord × LogRecordPos) : Option (Except Errors ParsedRecord) :=
  match logRecordKeyParse rp.1.key with
  | none => none
  | some (.error e) => some (.error e)
  | some (.ok k) => some (.ok ⟨k.pfx, k.seqId, k.key, rp.1.recordType, rp.2⟩)

/-- Key parsing over a whole journal, in scan order: the first panic or
decoding failure aborts the scan as in the source loop. -/
def parseJournal : List (LogRecord × LogRecordPos) →
    Option (Except Errors (List ParsedRecord))
  | [] => some (.ok [])
  | rp :: rest =>
    match parseRecord rp with
    | none => none
    | some (.error e) => some (.error e)
    | some (.ok r) =>
      match parseJournal rest with
      | none => none
      | some (.error e) => some (.error e)
      | some (.ok rs) => some (.ok (r :: rs))

/-- `Engine::load_index_from_data_files` at record granularity: parse
every appended record's framed key, then run the recovery scan. -/
def loadIndexModel (journal : List (LogRecord × LogRecordPos)) :
    Option (Except Errors (Keydir × Pending)) :=
  match parseJournal journal with
  | none => none
  | some (.error e) => some (.error e)
  | some (.ok rs) => some (replayScan rs)

end Db

theorem cmpBytes_eq_iff : ∀ a b : List Nat, cmpBytes a b = .eq ↔ a = b := by
  intro a
  induction a with
  | nil => intro b; cases b <;> simp [cmpBytes]
  | cons x as ih =>
    intro b
    cases b with
    | nil => simp [cmpBytes]
    | cons y bs =>
      by_cases hxy : x < y
      · simp [cmpBytes, hxy]
        intro h; omega
      · by_cases hyx : y < x
        · simp [cmpBytes, hxy, hyx]
          intro h; omega
        · have hx : x = y := by omega
          simp [cmpBytes, hxy, hyx, hx, ih bs]

theorem cmpBytes_self (a : List Nat) : cmpBytes a a = .eq :=
  (cmpBytes_eq_iff a a).mpr rfl

theorem cmpBytes_swap : ∀ a b : List Nat, cmpBytes b a = (cmpBytes a b).swap := by
  intro a
  induction a with
  | nil => intro b; cases b <;> simp [cmpBytes, Ordering.swap]
  | cons x as ih =>
    intro b
    cases b with
    | nil => simp [cmpBytes, Ordering.swap]
    | cons y bs =>
      by_cases hxy : x < y
      · have : ¬ y < x := by omega
        simp [cmpBytes, hxy, this, Ordering.swap]
      · by_cases hyx : y < x
        · simp [cmpBytes, hxy, hyx, Ordering.swap]
        · simp [cmpBytes, hxy, hyx, ih bs]

theorem cmpBytes_lt_trans :
    ∀ a b c : List Nat, cmpBytes a b = .lt → cmpBytes b c = .lt → cmpBytes a c = .lt := by
  intro a
  induction a with
  | nil =>
    intro b c hab hbc
    cases b with
    | nil => exact hbc
    | cons y bs =>
      cases c with
      | nil => simp [cmpBytes] at hbc
      | cons z cs => simp [cmpBytes]
  | cons x as ih =>
    intro b c hab hbc
    cases b with
    | nil => simp [cmpBytes] at hab
    | cons y bs =>
      cases c with
      | nil => simp [cmpBytes] at hbc
      | cons z cs =>
        simp only [cmpBytes] at hab hbc ⊢
        by_cases hxy : x < y
        · by_cases hyz : y < z
          · have hxz : x < z := by omega
            simp [hxz]
          · by_cases hzy : z < y
            · simp [hyz, hzy] at hbc
            · have hyz' : y = z := by omega
              have hxz : x < z := by omega
              simp [hxz]
        · by_cases hyx : y < x
          · simp [hxy, hyx] at hab
          · have hxy' : x = y := by omega
            subst hxy'
            by_cases hyz : x < z
            · simp [hyz]
            · by_cases hzy : z < x
              · simp [hyz, hzy] at hbc
              · simp [hxy, hyx] at hab
                simp [hyz, hzy] at hbc ⊢
                exact ih bs cs hab hbc

theorem varintEncodeGo_length_le :
    ∀ fuel n k : Nat, n < 2 ^ (7 * (k + 1)) → (varintEncodeGo fuel n).length ≤ k + 1 := by
  intro fuel
  induction fuel with
  | zero => intro n k _; simp [varintEncodeGo]
  | succ fuel ih =>
    intro n k hn
    rw [varintEncodeGo]
    by_cases h : n < 128
    · simp [h]
    · cases k with
      | zero => omega
      | succ k =>
        have hpow : (2 : Nat) ^ (7 * (k + 1 + 1)) = 2 ^ (7 * (k + 1)) * 128 := by
          rw [show 7 * (k + 1 + 1) = 7 * (k + 1) + 7 by ring, pow_add]
          norm_num
        have hdiv : n / 128 < 2 ^ (7 * (k + 1)) := by
          rw [Nat.div_lt_iff_lt_mul (by norm_num)]
          omega
        have := ih (n / 128) k hdiv
        simp [h]
        omega

/-- Decoding the canonical encoding of `n` recovers `n` and leaves the
remainder untouched, as long as the encoding stays clear of the 10-byte
`u64` overflow corner (every use in this development has `n < 2 ^ 32`,
whose encodings take at most 5 bytes). -/
theorem decodeVarintGo_encodeGo :
    ∀ fuel n rest acc count, n < 2 ^ (7 * fuel) →
      (varintEncodeGo fuel n).length + count ≤ 9 →
      decodeVarintGo (varintEncodeGo fuel n ++ rest) acc count =
        some (acc + n * 2 ^ (7 * count), rest) := by
  intro fuel
  induction fuel with
  | zero =>
    intro n rest acc count hn hlen
    have hn0 : n = 0 := by simpa using hn
    subst hn0
    have hlen1 : count ≤ 8 := by simp [varintEncodeGo] at hlen; omega
    simp [varintEncodeGo, decodeVarintGo, show ¬ count ≥ 10 by omega]
  | succ fuel ih =>
    intro n rest acc count hn hlen
    rw [varintEncodeGo] at hlen ⊢
    by_cases h : n < 128
    · have hlen1 : count ≤ 8 := by simp [h] at hlen; omega
      have hc : ¬ count ≥ 10 := by omega
      have hmod : n % 256 = n := Nat.mod_eq_of_lt (by omega)
      have hmod' : n % 128 = n := Nat.mod_eq_of_lt h
      simp [h, decodeVarintGo, hc, hmod, hmod']
      omega
    · have hlen' : (varintEncodeGo fuel (n / 128)).length + (count + 1) ≤ 9 := by
        simp [h] at hlen; omega
      have hpow : (2 : Nat) ^ (7 * (fuel + 1)) = 2 ^ (7 * fuel) * 128 := by
        rw [show 7 * (fuel + 1) = 7 * fuel + 7 by ring, pow_add]
        norm_num
      have hdiv : n / 128 < 2 ^ (7 * fuel) := by
        rw [Nat.div_lt_iff_lt_mul (by norm_num)]
        omega
      have hb : (n % 128 + 128) % 256 ≥ 128 := by
        have h1 : n % 128 < 128 := Nat.mod_lt _ (by norm_num)
        have : (n % 128 + 128) % 256 = n % 128 + 128 := Nat.mod_eq_of_lt (by omega)
        omega
      have hc : ¬ count ≥ 10 := by omega
      have hbmod : (n % 128 + 128) % 128 = n % 128 := by omega
      simp only [h, decodeVarintGo, List.cons_append, if_neg hc, if_false, List.append_eq]
      rw [if_neg (by omega)]
      rw [hbmod, ih (n / 128) rest _ _ hdiv hlen']
      have hval : acc + n % 128 * 2 ^ (7 * count) + n / 128 * 2 ^ (7 * (count + 1)) =
          acc + n * 2 ^ (7 * count) := by
        have hmd : n % 128 + 128 * (n / 128) = n := Nat.mod_add_div n 128
        calc acc + n % 128 * 2 ^ (7 * count) + n / 128 * 2 ^ (7 * (count + 1))
            = acc + (n % 128 + 128 * (n / 128)) * 2 ^ (7 * count) := by
              rw [show 7 * (count + 1) = 7 * count + 7 by ring, pow_add]
              ring
          _ = acc + n * 2 ^ (7 * count) := by rw [hmd]
      rw [hval]

theorem varintEncode_length_le_five (n : Nat) (h : n < 2 ^ 32) :
    (varintEncode n).length ≤ 5 := by
  have hb : n < 2 ^ (7 * (4 + 1)) := by
    have h35 : (2 : Nat) ^ 32 ≤ 2 ^ (7 * (4 + 1)) := Nat.pow_le_pow_right (by norm_num) (by norm_num)
    omega
  exact varintEncodeGo_length_le 10 n 4 hb

theorem decodeVarint_encode (n : Nat) (rest : List Nat) (h : n < 2 ^ 32) :
    decodeVarint (varintEncode n ++ rest) = some (n, rest) := by
  have hn : n < 2 ^ (7 * 10) := by
    have h70 : (2 : Nat) ^ 32 ≤ 2 ^ (7 * 10) := Nat.pow_le_pow_right (by norm_num) (by norm_num)
    omega
  have hlen : (varintEncodeGo 10 n).length ≤ 5 := varintEncode_length_le_five n h
  have := decodeVarintGo_encodeGo 10 n rest 0 0 hn (by omega)
  simpa [decodeVarint, varintEncode] using this

theorem readPad_length (file : List Nat) (off n : Nat) :
    (readPad file off n).length = n := by
  simp [readPad]

theorem readPad_append_left (pre post : List Nat) (n : Nat)
    (h : n ≤ pre.length) :
    readPad (pre ++ post) 0 n = pre.take n := by
  simp [readPad, List.take_append_eq_append_take]
  omega

theorem le32Decode_encode (n : Nat) (h : n < 2 ^ 32) :
    le32Decode (le32Encode n) = n := by
  simp only [le32Encode, le32Decode]
  omega

theorem crc32Step_lt (c : Nat) (h : c < 2 ^ 32) : crc32Step c < 2 ^ 32 := by
  unfold crc32Step
  split
  · exact Nat.xor_lt_two_pow (by omega) (by norm_num)
  · omega

theorem crc32Step_iter_lt (k c : Nat) (h : c < 2 ^ 32) :
    crc32Step^[k] c < 2 ^ 32 := by
  induction k generalizing c with
  | zero => simpa using h
  | succ k ih =>
    rw [Function.iterate_succ_apply]
    exact ih _ (crc32Step_lt c h)

theorem crc32Byte_lt (c b : Nat) (h : c < 2 ^ 32) : crc32Byte c b < 2 ^ 32 :=
  crc32Step_iter_lt 8 _ (Nat.xor_lt_two_pow h (by have := Nat.mod_lt b (show 0 < 256 by norm_num); omega))

theorem crc32_lt (data : List Nat) : crc32 data < 2 ^ 32 := by
  unfold crc32
  have hfold : ∀ c, c < 2 ^ 32 → data.foldl crc32Byte c < 2 ^ 32 := by
    induction data with
    | nil => intro c hc; simpa using hc
    | cons b rest ih =>
      intro c hc
      exact ih _ (crc32Byte_lt c b hc)
  exact Nat.xor_lt_two_pow (hfold _ (by norm_num)) (by norm_num)

theorem ordRank_eq_zero (o : Ordering) : ordRank o = 0 ↔ o = .lt := by
  cases o <;> simp [ordRank]

theorem ordRank_of_ne_lt (o : Ordering) (h : o ≠ .lt) : 1 ≤ ordRank o := by
  cases o <;> simp [ordRank] at h ⊢

theorem ordRank_swap (o : Ordering) : ordRank o.swap = 2 - ordRank o := by
  cases o <;> rfl

theorem Ordering.swap_eq_lt_iff (o : Ordering) : o.swap = .lt ↔ o = .gt := by
  cases o <;> simp [Ordering.swap]

theorem cmpBytes_rank_mono (a b k : List Nat) (hab : cmpBytes a b = .lt) :
    ordRank (cmpBytes a k) ≤ ordRank (cmpBytes b k) := by
  rcases hbk : cmpBytes b k with _ | _ | _
  · have : cmpBytes a k = .lt := cmpBytes_lt_trans a b k hab hbk
    simp [this]
  · have hb : b = k := (cmpBytes_eq_iff b k).mp hbk
    subst hb
    simp [hab, ordRank]
  · cases hak : cmpBytes a k <;> simp [ordRank]

/-- Specification of the fueled `binary_search_by` loop: with a
comparator that is monotone along the slice and hits `eq` at most once,
the returned index splits the slice into a strict-`lt` prefix and a
non-`lt` suffix. -/
theorem bsGo_spec (f : List Nat × LogRecordPos → Ordering)
    (items : List (List Nat × LogRecordPos))
    (hmono : ∀ i j, i ≤ j → j < items.length →
      ordRank (f (items.getD i ([], ⟨0, 0⟩))) ≤ ordRank (f (items.getD j ([], ⟨0, 0⟩))))
    (huniq : ∀ i j, i < items.length → j < items.length →
      f (items.getD i ([], ⟨0, 0⟩)) = .eq → f (items.getD j ([], ⟨0, 0⟩)) = .eq → i = j) :
    ∀ fuel left right, right ≤ items.length → left ≤ right → right - left ≤ fuel →
    (∀ i, i < left → f (items.getD i ([], ⟨0, 0⟩)) = .lt) →
    (∀ i, right ≤ i → i < items.length → f (items.getD i ([], ⟨0, 0⟩)) ≠ .lt) →
    bsGo f items fuel left right ≤ items.length ∧
      (∀ i, i < bsGo f items fuel left right → f (items.getD i ([], ⟨0, 0⟩)) = .lt) ∧
      (∀ i, bsGo f items fuel left right ≤ i → i < items.length →
        f (items.getD i ([], ⟨0, 0⟩)) ≠ .lt) := by
  intro fuel
  induction fuel with
  | zero =>
    intro left right hrl hlr hfuel hpre hpost
    have heq : left = right := by omega
    subst heq
    rw [bsGo]
    exact ⟨by omega, hpre, hpost⟩
  | succ fuel ih =>
    intro left right hrl hlr hfuel hpre hpost
    rw [bsGo]
    by_cases hlt : left < right
    · simp only [if_pos hlt]
      have hmid : left + (right - left) / 2 < right := by omega
      have hmidl : left ≤ left + (right - left) / 2 := by omega
      split
      · rename_i hf
        refine ih (left + (right - left) / 2 + 1) right hrl (by omega) (by omega) ?_ hpost
        intro i hi
        by_cases hil : i < left
        · exact hpre i hil
        · have h1 : ordRank (f (items.getD i ([], ⟨0, 0⟩))) ≤
              ordRank (f (items.getD (left + (right - left) / 2) ([], ⟨0, 0⟩))) :=
            hmono i _ (by omega) (by omega)
          rw [hf] at h1
          exact (ordRank_eq_zero _).mp (by simpa [ordRank] using h1)
      · rename_i hf
        refine ih left (left + (right - left) / 2) (by omega) (by omega) (by omega) hpre ?_
        intro i hi hil
        have h1 : ordRank (f (items.getD (left + (right - left) / 2) ([], ⟨0, 0⟩))) ≤
            ordRank (f (items.getD i ([], ⟨0, 0⟩))) := hmono _ i (by omega) hil
        rw [hf] at h1
        intro hcon
        rw [hcon] at h1
        simp [ordRank] at h1
      · rename_i hf
        have hunique : ∀ i, i < left + (right - left) / 2 →
            f (items.getD i ([], ⟨0, 0⟩)) = .lt := by
          intro i hi
          by_cases hil : i < left
          · exact hpre i hil
          · have h1 : ordRank (f (items.getD i ([], ⟨0, 0⟩))) ≤
                ordRank (f (items.getD (left + (right - left) / 2) ([], ⟨0, 0⟩))) :=
              hmono i _ (by omega) (by omega)
            rw [hf] at h1
            rcases ho : f (items.getD i ([], ⟨0, 0⟩)) with _ | _ | _
            · rfl
            · exact absurd (huniq i _ (by omega) (by omega) ho hf) (by omega)
            · rw [ho] at h1; simp [ordRank] at h1
        refine ⟨by omega, hunique, ?_⟩
        intro i hi hil
        by_cases hieq : i = left + (right - left) / 2
        · subst hieq
          intro hcon
          rw [hcon] at hf
          cases hf
        · have h1 : ordRank (f (items.getD (left + (right - left) / 2) ([], ⟨0, 0⟩))) ≤
              ordRank (f (items.getD i ([], ⟨0, 0⟩))) := hmono _ i (by omega) hil
          rw [hf] at h1
          intro hcon
          rw [hcon] at h1
          simp [ordRank] at h1
    · simp only [if_neg hlt]
      have heq : left = right := by omega
      subst heq
      exact ⟨by omega, hpre, hpost⟩

/-- Specification of `binary_search_by` over the full slice. -/
theorem binarySearchPos_spec (f : List Nat × LogRecordPos → Ordering)
    (items : List (List Nat × LogRecordPos))
    (hmono : ∀ i j, i ≤ j → j < items.length →
      ordRank (f (items.getD i ([], ⟨0, 0⟩))) ≤ ordRank (f (items.getD j ([], ⟨0, 0⟩))))
    (huniq : ∀ i j, i < items.length → j < items.length →
      f (items.getD i ([], ⟨0, 0⟩)) = .eq → f (items.getD j ([], ⟨0, 0⟩)) = .eq → i = j) :
    binarySearchPos f items ≤ items.length ∧
      (∀ i, i < binarySearchPos f items → f (items.getD i ([], ⟨0, 0⟩)) = .lt) ∧
      (∀ i, binarySearchPos f items ≤ i → i < items.length →
        f (items.getD i ([], ⟨0, 0⟩)) ≠ .lt) :=
  bsGo_spec f items hmono huniq items.length 0 items.length (by omega) (by omega) (by omega)
    (by omega) (fun i hi hil => by omega)

/-- Splitting a list at an index that separates failures of a predicate
from successes turns `drop` into `filter`. -/
theorem drop_eq_filter_of_split {α : Type} (p : α → Bool) :
    ∀ (l : List α) (n : Nat), n ≤ l.length →
    (∀ i (h : i < l.length), i < n → p (l.get ⟨i, h⟩) = false) →
    (∀ i (h : i < l.length), n ≤ i → p (l.get ⟨i, h⟩) = true) →
    l.drop n = l.filter p := by
  intro l
  induction l with
  | nil => intro n _ _ _; simp
  | cons x xs ih =>
    intro n hn hfail hok
    cases n with
    | zero =>
      have hx : p x = true := hok 0 (by simp) (by omega)
      have hall : xs.drop 0 = xs.filter p := by
        refine ih 0 (by omega) (fun i h hi => by omega) ?_
        intro i h _
        exact hok (i + 1) (by simpa using Nat.succ_lt_succ h) (by omega)
      simp only [List.drop_zero] at hall ⊢
      simp [List.filter_cons, hx, ← hall]
    | succ n =>
      have hx : p x = false := hfail 0 (by simp) (by omega)
      have hrest : xs.drop n = xs.filter p := by
        refine ih n (by simpa using Nat.lt_succ_iff.mp (Nat.lt_succ_of_le hn)) ?_ ?_
        · intro i h hi
          exact hfail (i + 1) (by simpa using Nat.succ_lt_succ h) (by omega)
        · intro i h hi
          exact hok (i + 1) (by simpa using Nat.succ_lt_succ h) (by omega)
      simp [List.filter_cons, hx, List.drop_succ_cons, hrest]

/-- Collecting the iterator from position `pos` yields the item suffix
starting there. -/
theorem iterCollectGo_eq_drop :
    ∀ fuel (it : BtreeIndexIterator), fuel = it.items.length - it.pos →
      iterCollectGo fuel it = it.items.drop it.pos := by
  intro fuel
  induction fuel with
  | zero =>
    intro it hf
    rw [iterCollectGo, eq_comm, List.drop_eq_nil_iff]
    omega
  | succ fuel ih =>
    intro it hf
    have hpos : it.pos < it.items.length := by omega
    have hnext : it.next =
        some (it.items.getD it.pos ([], ⟨0, 0⟩), { it with pos := it.pos + 1 }) := by
      simp [BtreeIndexIterator.next, Nat.not_le.mpr hpos]
    rw [iterCollectGo, hnext]
    show it.items.getD it.pos ([], ⟨0, 0⟩) ::
        iterCollectGo fuel { it with pos := it.pos + 1 } = it.items.drop it.pos
    rw [ih { it with pos := it.pos + 1 } (by simp; omega)]
    rw [List.getD_eq_getElem _ _ hpos, List.drop_eq_getElem_cons hpos]

theorem collect_eq_drop (it : BtreeIndexIterator) :
    it.collect = it.items.drop it.pos :=
  iterCollectGo_eq_drop _ it rfl

theorem ordRank_le_two (o : Ordering) : ordRank o ≤ 2 := by
  cases o <;> simp [ordRank]

theorem Ordering.swap_eq_eq_iff (o : Ordering) : o.swap = .eq ↔ o = .eq := by
  cases o <;> simp [Ordering.swap]

theorem cmpBytes_rank_mono_swap (a b k : List Nat) (hba : cmpBytes b a = .lt) :
    ordRank (cmpBytes a k).swap ≤ ordRank (cmpBytes b k).swap := by
  have h1 := cmpBytes_rank_mono b a k hba
  have h2 := ordRank_le_two (cmpBytes a k)
  have h3 := ordRank_le_two (cmpBytes b k)
  rw [ordRank_swap, ordRank_swap]
  omega

/-- Monotonicity of the forward seek comparator along a key-sorted
snapshot. -/
theorem seekMono_forward (items : List (List Nat × LogRecordPos)) (k : List Nat)
    (hsorted : List.Pairwise (fun a b => cmpBytes a.1 b.1 = .lt) items) :
    ∀ i j, i ≤ j → j < items.length →
      ordRank (cmpBytes (items.getD i ([], ⟨0, 0⟩)).1 k) ≤
        ordRank (cmpBytes (items.getD j ([], ⟨0, 0⟩)).1 k) := by
  intro i j hij hj
  rcases Nat.eq_or_lt_of_le hij with rfl | hlt
  · exact le_refl _
  · have hrel := (List.pairwise_iff_getElem.mp hsorted) i j (by omega) hj hlt
    rw [List.getD_eq_getElem _ _ (by omega : i < items.length),
      List.getD_eq_getElem _ _ hj]
    exact cmpBytes_rank_mono _ _ k hrel

/-- Uniqueness of the comparator's `eq` outcome along a key-sorted
snapshot (keys are distinct). -/
theorem seekUniq_forward (items : List (List Nat × LogRecordPos)) (k : List Nat)
    (hsorted : List.Pairwise (fun a b => cmpBytes a.1 b.1 = .lt) items) :
    ∀ i j, i < items.length → j < items.length →
      cmpBytes (items.getD i ([], ⟨0, 0⟩)).1 k = .eq →
      cmpBytes (items.getD j ([], ⟨0, 0⟩)).1 k = .eq → i = j := by
  intro i j hi hj hei hej
  rw [List.getD_eq_getElem _ _ hi] at hei
  rw [List.getD_eq_getElem _ _ hj] at hej
  have hki : (items.get ⟨i, hi⟩).1 = k := (cmpBytes_eq_iff _ _).mp hei
  have hkj : (items.get ⟨j, hj⟩).1 = k := (cmpBytes_eq_iff _ _).mp hej
  rcases Nat.lt_trichotomy i j with hlt | heq | hgt
  · have hrel := (List.pairwise_iff_getElem.mp hsorted) i j hi hj hlt
    rw [show items[i].1 = k from hki, show items[j].1 = k from hkj] at hrel
    rw [cmpBytes_self] at hrel
    cases hrel
  · exact heq
  · have hrel := (List.pairwise_iff_getElem.mp hsorted) j i hj hi hgt
    rw [show items[i].1 = k from hki, show items[j].1 = k from hkj] at hrel
    rw [cmpBytes_self] at hrel
    cases hrel

/-- C7: seek contract of the snapshot iterator. For any keydir snapshot
(sorted, distinct keys as the B-tree holds it) and any probe key `k`, a
forward `seek(k)` followed by exhausting `next()` yields exactly the
snapshot entries whose key starts with the option's key filter and is
at least `k`, in ascending key order (the order of the sorted
snapshot); with `reverse` set it yields exactly the entries whose key
starts with the filter and is at most `k`, in descending order. -/
theorem claimC7_seek_contract (kd : Keydir) (options : IndexIteratorOptions) (k : List Nat)
    (hsorted : kdSorted kd) :
    ((mkIterator kd options).seek k).collect =
      if options.reverse then
        ((kd.filter (fun e => options.pfx.isPrefixOf e.1)).filter
          (fun e => decide (cmpBytes e.1 k ≠ .gt))).reverse
      else
        (kd.filter (fun e => options.pfx.isPrefixOf e.1)).filter
          (fun e => decide (cmpBytes e.1 k ≠ .lt)) := by
  have hsorted0 : List.Pairwise (fun a b => cmpBytes a.1 b.1 = .lt)
      (kd.filter (fun e => options.pfx.isPrefixOf e.1)) := hsorted.filter _
  rcases hrev : options.reverse
  · have hseek : (mkIterator kd options).seek k =
        { items := kd.filter (fun e => options.pfx.isPrefixOf e.1)
          pos := binarySearchPos (fun x => cmpBytes x.1 k)
            (kd.filter (fun e => options.pfx.isPrefixOf e.1))
          options := options } := by
      simp [mkIterator, BtreeIndexIterator.seek, iteratorItems, hrev]
    obtain ⟨hle, hpre, hpost⟩ := binarySearchPos_spec (fun x => cmpBytes x.1 k)
      (kd.filter (fun e => options.pfx.isPrefixOf e.1))
      (seekMono_forward _ k hsorted0) (seekUniq_forward _ k hsorted0)
    rw [hseek, collect_eq_drop]
    simp only [if_neg (by simp : ¬ (false = true))]
    refine drop_eq_filter_of_split _ _ _ hle ?_ ?_
    · intro i h hi
      have := hpre i hi
      rw [List.getD_eq_getElem _ _ h] at this
      simp [this]
    · intro i h hi
      have := hpost i hi h
      rw [List.getD_eq_getElem _ _ h] at this
      simp [this]
  · have hseek : (mkIterator kd options).seek k =
        { items := (kd.filter (fun e => options.pfx.isPrefixOf e.1)).reverse
          pos := binarySearchPos (fun x => (cmpBytes x.1 k).swap)
            ((kd.filter (fun e => options.pfx.isPrefixOf e.1)).reverse)
          options := options } := by
      simp [mkIterator, BtreeIndexIterator.seek, iteratorItems, hrev]
    have hsortedR : List.Pairwise (fun a b => cmpBytes b.1 a.1 = .lt)
        ((kd.filter (fun e => options.pfx.isPrefixOf e.1)).reverse) :=
      List.pairwise_reverse.mpr hsorted0
    have hmono : ∀ i j, i ≤ j →
        j < ((kd.filter (fun e => options.pfx.isPrefixOf e.1)).reverse).length →
        ordRank ((cmpBytes (((kd.filter (fun e => options.pfx.isPrefixOf e.1)).reverse).getD i
            ([], ⟨0, 0⟩)).1 k).swap) ≤
          ordRank ((cmpBytes (((kd.filter (fun e => options.pfx.isPrefixOf e.1)).reverse).getD j
            ([], ⟨0, 0⟩)).1 k).swap) := by
      intro i j hij hj
      rcases Nat.eq_or_lt_of_le hij with rfl | hlt
      · exact le_refl _
      · have hrel := (List.pairwise_iff_getElem.mp hsortedR) i j (by omega) hj hlt
        rw [List.getD_eq_getElem _ _ (by omega : i < _), List.getD_eq_getElem _ _ hj]
        exact cmpBytes_rank_mono_swap _ _ k hrel
    have huniq : ∀ i j,
        i < ((kd.filter (fun e => options.pfx.isPrefixOf e.1)).reverse).length →
        j < ((kd.filter (fun e => options.pfx.isPrefixOf e.1)).reverse).length →
        (cmpBytes (((kd.filter (fun e => options.pfx.isPrefixOf e.1)).reverse).getD i
          ([], ⟨0, 0⟩)).1 k).swap = .eq →
        (cmpBytes (((kd.filter (fun e => options.pfx.isPrefixOf e.1)).reverse).getD j
          ([], ⟨0, 0⟩)).1 k).swap = .eq → i = j := by
      intro i j hi hj hei hej
      rw [Ordering.swap_eq_eq_iff] at hei hej
      rw [List.getD_eq_getElem _ _ hi] at hei
      rw [List.getD_eq_getElem _ _ hj] at hej
      have hki := (cmpBytes_eq_iff _ _).mp hei
      have hkj := (cmpBytes_eq_iff _ _).mp hej
      rcases Nat.lt_trichotomy i j with hlt | heq | hgt
      · have hrel := (List.pairwise_iff_getElem.mp hsortedR) i j hi hj hlt
        rw [hki, hkj, cmpBytes_self] at hrel
        cases hrel
      · exact heq
      · have hrel := (List.pairwise_iff_getElem.mp hsortedR) j i hj hi hgt
        rw [hki, hkj, cmpBytes_self] at hrel
        cases hrel
    obtain ⟨hle, hpre, hpost⟩ := binarySearchPos_spec (fun x => (cmpBytes x.1 k).swap)
      ((kd.filter (fun e => options.pfx.isPrefixOf e.1)).reverse) hmono huniq
    rw [hseek, collect_eq_drop]
    simp only [if_pos rfl]
    have hfil : ((kd.filter (fun e => options.pfx.isPrefixOf e.1)).reverse).drop
        (binarySearchPos (fun x => (cmpBytes x.1 k).swap)
          ((kd.filter (fun e => options.pfx.isPrefixOf e.1)).reverse)) =
        ((kd.filter (fun e => options.pfx.isPrefixOf e.1)).reverse).filter
          (fun e => decide (cmpBytes e.1 k ≠ .gt)) := by
      refine drop_eq_filter_of_split _ _ _ hle ?_ ?_
      · intro i h hi
        have := hpre i hi
        rw [List.getD_eq_getElem _ _ h] at this
        rw [Ordering.swap_eq_lt_iff] at this
        simp only [List.get_eq_getElem, this]
        rfl
      · intro i h hi
        have := hpost i hi h
        rw [List.getD_eq_getElem _ _ h] at this
        rw [ne_eq, Ordering.swap_eq_lt_iff] at this
        simp only [List.get_eq_getElem]
        exact decide_eq_true this
    rw [hfil, List.filter_reverse]
    simp

/-- C7 witness: the contract evaluated on a concrete three-entry
snapshot with a non-empty key filter, forward and in reverse. -/
theorem claimC7_witness :
    kdSorted [([1], ⟨1, 1⟩), ([1, 2], ⟨2, 2⟩), ([2, 9], ⟨3, 3⟩)] ∧
      ((mkIterator [([1], ⟨1, 1⟩), ([1, 2], ⟨2, 2⟩), ([2, 9], ⟨3, 3⟩)]
          { pfx := [1], reverse := false }).seek [1, 1]).collect =
        ([([1], ⟨1, 1⟩), ([1, 2], ⟨2, 2⟩), ([2, 9], ⟨3, 3⟩)].filter
            (fun e => [1].isPrefixOf e.1)).filter
          (fun e => decide (cmpBytes e.1 [1, 1] ≠ .lt)) := by
  constructor
  · simp [kdSorted, cmpBytes]
  · have := claimC7_seek_contract [([1], ⟨1, 1⟩), ([1, 2], ⟨2, 2⟩), ([2, 9], ⟨3, 3⟩)]
      { pfx := [1], reverse := false } [1, 1] (by simp [kdSorted, cmpBytes])
    simpa using this

theorem kdGet_kdPut_self (kd : Keydir) (k : List Nat) (p : LogRecordPos) :
    kdGet (kdPut kd k p) k = some p := by
  induction kd with
  | nil => simp [kdPut, kdGet]
  | cons e rest ih =>
    obtain ⟨k2, p2⟩ := e
    rw [kdPut]
    rcases hc : cmpBytes k k2 with _ | _ | _
    · simp [kdGet]
    · simp [kdGet]
    · have hne : k ≠ k2 := by
        intro h
        rw [h, cmpBytes_self] at hc
        cases hc
      simp [kdGet, hne, ih]

theorem kdGet_kdPut_ne (kd : Keydir) (k : List Nat) (p : LogRecordPos)
    (k2 : List Nat) (h : k2 ≠ k) : kdGet (kdPut kd k p) k2 = kdGet kd k2 := by
  induction kd with
  | nil => simp [kdPut, kdGet, h]
  | cons e rest ih =>
    obtain ⟨k3, p3⟩ := e
    rw [kdPut]
    rcases hc : cmpBytes k k3 with _ | _ | _
    · simp [kdGet, h]
    · have hk : k = k3 := (cmpBytes_eq_iff k k3).mp hc
      subst hk
      simp [kdGet, h]
    · by_cases h23 : k2 = k3
      · simp [kdGet, h23]
      · simp [kdGet, h23, ih]

theorem kdGet_foldl_put_not_mem :
    ∀ (l : List (LogRecordPos × List Nat)) (kd : Keydir) (k : List Nat),
      (∀ pk ∈ l, pk.2 ≠ k) →
      kdGet (l.foldl (fun kd x => kdPut kd x.2 x.1) kd) k = kdGet kd k := by
  intro l
  induction l with
  | nil => intro kd k _; rfl
  | cons x rest ih =>
    intro kd k hne
    rw [List.foldl_cons, ih _ k (fun pk hpk => hne pk (List.mem_cons_of_mem x hpk))]
    exact kdGet_kdPut_ne kd x.2 x.1 k (fun h => hne x (List.mem_cons_self x rest) (h ▸ rfl))

theorem kdGet_foldl_put_mem :
    ∀ (l : List (LogRecordPos × List Nat)) (kd : Keydir),
      (l.map Prod.snd).Pairwise (· ≠ ·) →
      ∀ pk ∈ l, kdGet (l.foldl (fun kd x => kdPut kd x.2 x.1) kd) pk.2 = some pk.1 := by
  intro l
  induction l with
  | nil => intro kd _ pk hpk; cases hpk
  | cons x rest ih =>
    intro kd hdist pk hpk
    rw [List.map_cons, List.pairwise_cons] at hdist
    rcases List.mem_cons.mp hpk with rfl | hmem
    · rw [List.foldl_cons,
        kdGet_foldl_put_not_mem rest _ pk.2
          (fun pk2 hpk2 => (hdist.1 pk2.2 (List.mem_map_of_mem Prod.snd hpk2)).symm)]
      exact kdGet_kdPut_self kd pk.2 pk.1
    · exact ih _ hdist.2 pk hmem

namespace Codec

theorem logRecordMaxSize_eq : logRecordMaxSize = 15 := by decide

theorem LogRecordType.fromU8_toU8 (t : LogRecordType) :
    LogRecordType.fromU8 t.toU8 = some t := by
  cases t <;> rfl

theorem LogRecord.encode_length (r : LogRecord) :
    r.encode.length =
      1 + (varintEncode r.key.length).length + (varintEncode r.value.length).length +
        r.key.length + r.value.length + 4 := by
  simp [LogRecord.encode, LogRecord.encodeBody, le32Encode]
  omega

/-- Reading back a record that `encode` wrote at offset `pre.length`
recovers the record and its on-disk size, for any byte suffix following
it. Sizes are bounded by `u32::MAX` as in the source's header layout. -/
theorem readLogRecord_encode (r : LogRecord) (pre suffixBytes : List Nat)
    (hk : r.key.length < 2 ^ 32) (hv : r.value.length < 2 ^ 32)
    (hnz : 0 < r.key.length + r.value.length) :
    readLogRecord (pre ++ r.encode ++ suffixBytes) pre.length =
      some (.ok { record := r, size := r.encode.length }) := by
  have hvk5 : (varintEncode r.key.length).length ≤ 5 := varintEncode_length_le_five _ hk
  have hvv5 : (varintEncode r.value.length).length ≤ 5 := varintEncode_length_le_five _ hv
  have hcrcw : (le32Encode r.getCrc).length = 4 := by simp [le32Encode]
  have hassoc : pre ++ r.encode ++ suffixBytes = pre ++ (r.encode ++ suffixBytes) := by
    simp [List.append_assoc]
  have hdropPre : (pre ++ (r.encode ++ suffixBytes)).drop pre.length = r.encode ++ suffixBytes :=
    List.drop_left _ _
  -- Header buffer: 15 bytes starting at the record's type byte.
  have hencZ : r.encode ++ suffixBytes ++ List.replicate 15 0 =
      r.recordType.toU8 ::
        (varintEncode r.key.length ++
          (varintEncode r.value.length ++
            (r.key ++ (r.value ++
              (le32Encode r.getCrc ++ (suffixBytes ++ List.replicate 15 0)))))) := by
    simp [LogRecord.encode, LogRecord.encodeBody, List.append_assoc]
  have hhdr : readPad (pre ++ r.encode ++ suffixBytes) pre.length logRecordMaxSize =
      r.recordType.toU8 ::
        (varintEncode r.key.length ++
          (varintEncode r.value.length ++
            (r.key ++ (r.value ++
              (le32Encode r.getCrc ++ (suffixBytes ++ List.replicate 15 0)))))).take 14 := by
    rw [logRecordMaxSize_eq, readPad, hassoc, hdropPre, ← List.append_assoc, hencZ]
    simp
  -- First varint: the key size.
  have htake14 : ((varintEncode r.key.length ++
      (varintEncode r.value.length ++
        (r.key ++ (r.value ++
          (le32Encode r.getCrc ++ (suffixBytes ++ List.replicate 15 0)))))) : List Nat).take 14 =
      varintEncode r.key.length ++
        ((varintEncode r.value.length ++
          (r.key ++ (r.value ++
            (le32Encode r.getCrc ++ (suffixBytes ++ List.replicate 15 0))))).take
          (14 - (varintEncode r.key.length).length)) := by
    rw [List.take_append_eq_append_take, List.take_of_length_le (by omega)]
  have hdec1 : ∀ tail : List Nat,
      decodeVarint (varintEncode r.key.length ++ tail) = some (r.key.length, tail) :=
    fun tail => decodeVarint_encode _ tail hk
  -- Second varint: the value size.
  have htake2 : ((varintEncode r.value.length ++
      (r.key ++ (r.value ++
        (le32Encode r.getCrc ++ (suffixBytes ++ List.replicate 15 0))))) : List Nat).take
        (14 - (varintEncode r.key.length).length) =
      varintEncode r.value.length ++
        ((r.key ++ (r.value ++
          (le32Encode r.getCrc ++ (suffixBytes ++ List.replicate 15 0)))).take
          (14 - (varintEncode r.key.length).length - (varintEncode r.value.length).length)) := by
    rw [List.take_append_eq_append_take, List.take_of_length_le (by omega)]
  have hdec2 : ∀ tail : List Nat,
      decodeVarint (varintEncode r.value.length ++ tail) = some (r.value.length, tail) :=
    fun tail => decodeVarint_encode _ tail hv
  -- The key/value/CRC buffer read after the actual header.
  have hencA : r.encode ++ suffixBytes =
      (r.recordType.toU8 :: (varintEncode r.key.length ++ varintEncode r.value.length)) ++
        (r.key ++ (r.value ++ (le32Encode r.getCrc ++ suffixBytes))) := by
    simp [LogRecord.encode, LogRecord.encodeBody, List.append_assoc]
  have hahs : (1 + lengthDelimiterLen r.key.length + lengthDelimiterLen r.value.length) =
      (r.recordType.toU8 ::
        (varintEncode r.key.length ++ varintEncode r.value.length)).length := by
    simp [lengthDelimiterLen]
    omega
  have hdropKv : (pre ++ r.encode ++ suffixBytes).drop
      (pre.length + (1 + lengthDelimiterLen r.key.length + lengthDelimiterLen r.value.length)) =
      r.key ++ (r.value ++ (le32Encode r.getCrc ++ suffixBytes)) := by
    rw [← List.drop_drop, hassoc, hdropPre, hencA, hahs, List.drop_left]
  have hkv : readPad (pre ++ r.encode ++ suffixBytes)
      (pre.length + (1 + lengthDelimiterLen r.key.length + lengthDelimiterLen r.value.length))
      (r.key.length + r.value.length + 4) =
      r.key ++ (r.value ++ le32Encode r.getCrc) := by
    rw [readPad, hdropKv]
    have hlen : (r.key ++ (r.value ++ le32Encode r.getCrc)).length =
        r.key.length + r.value.length + 4 := by simp [hcrcw]; omega
    rw [show r.key ++ (r.value ++ (le32Encode r.getCrc ++ suffixBytes)) ++
          List.replicate (r.key.length + r.value.length + 4) 0 =
        (r.key ++ (r.value ++ le32Encode r.getCrc)) ++
          (suffixBytes ++ List.replicate (r.key.length + r.value.length + 4) 0) by
      simp [List.append_assoc]]
    rw [← hlen, List.take_left]
  -- Field extraction from the key/value/CRC buffer.
  have hkey : (r.key ++ (r.value ++ le32Encode r.getCrc)).take r.key.length = r.key :=
    List.take_left _ _
  have hdropKey : (r.key ++ (r.value ++ le32Encode r.getCrc)).drop r.key.length =
      r.value ++ le32Encode r.getCrc := List.drop_left _ _
  have hvalue : ((r.key ++ (r.value ++ le32Encode r.getCrc)).drop r.key.length).take
      r.value.length = r.value := by
    rw [hdropKey]
    exact List.take_left _ _
  have hcrcB : (r.key ++ (r.value ++ le32Encode r.getCrc)).drop
      (r.key.length + r.value.length) = le32Encode r.getCrc := by
    rw [← List.drop_drop, hdropKey]
    exact List.drop_left _ _
  have hcrcVal : le32Decode (le32Encode r.getCrc) = r.getCrc :=
    le32Decode_encode _ (crc32_lt _)
  -- Assemble.
  have hne : ¬ (r.key.length = 0 ∧ r.value.length = 0) := by omega
  have hov : ¬ (2 ^ 64 ≤ r.key.length + r.value.length + 4) := by
    have h64 : (2 : Nat) ^ 32 + 2 ^ 32 + 4 < 2 ^ 64 := by norm_num
    omega
  have hrec : ({ key := r.key, value := r.value, recordType := r.recordType } : LogRecord) = r := by
    cases r; rfl
  have hldk : lengthDelimiterLen r.key.length ≤ 5 := hvk5
  have hldv : lengthDelimiterLen r.value.length ≤ 5 := hvv5
  have hsum : 1 + lengthDelimiterLen r.key.length + lengthDelimiterLen r.value.length +
      r.key.length + r.value.length + 4 < 2 ^ 64 := by
    have h64 : (15 : Nat) + 2 ^ 32 + 2 ^ 32 < 2 ^ 64 := by norm_num
    omega
  have hsize : (1 + lengthDelimiterLen r.key.length + lengthDelimiterLen r.value.length +
      r.key.length + r.value.length + 4) % 2 ^ 64 = r.encode.length := by
    rw [Nat.mod_eq_of_lt hsum, LogRecord.encode_length]
    simp [lengthDelimiterLen]
  simp only [readLogRecord, hhdr, List.headD_cons, List.drop_one, List.tail_cons,
    htake14, hdec1, htake2, hdec2, hne, hov, if_false, LOG_TYPE_FLAG_SIZE, LOG_CRC_SIZE,
    hkv, LogRecordType.fromU8_toU8, hkey, hvalue, hcrcB, hcrcVal, hrec,
    ne_eq, not_true_eq_false, ite_false]
  simp only [readLogRecord, hhdr, List.headD_cons, List.drop_one, List.tail_cons,
    htake14, hdec1, htake2, hdec2, hne, hov, LOG_TYPE_FLAG_SIZE, LOG_CRC_SIZE,
    hkv, LogRecordType.fromU8_toU8, hkey, hvalue, hcrcB, hcrcVal, hrec,
    eq_self_iff_true, not_true, if_false, if_true, ite_false, ite_true,
    Option.some.injEq, Except.ok.injEq, ReadLogRecord.mk.injEq, true_and]
  exact hsize

/-- Helper: the outcome classification of `readLogRecord` by the header
decode results. Used to settle C4. -/
theorem readLogRecord_classify (file : List Nat) (off : Nat) :
    (readLogRecord file off = some (.error .ReadEOF) ↔
      (∃ t, decodeVarint ((readPad file off logRecordMaxSize).drop 1) = some (0, t) ∧
        ∃ u, decodeVarint t = some (0, u))) ∧
    (decodeVarint ((readPad file off logRecordMaxSize).drop 1) = none →
      readLogRecord file off = some (.error .DatabaseFileCorrupted)) ∧
    (∀ ks t, decodeVarint ((readPad file off logRecordMaxSize).drop 1) = some (ks, t) →
      decodeVarint t = none →
      readLogRecord file off = some (.error .DatabaseFileCorrupted)) ∧
    (readLogRecord file off = none ↔
      (∃ ks t vs u, decodeVarint ((readPad file off logRecordMaxSize).drop 1) = some (ks, t) ∧
        decodeVarint t = some (vs, u) ∧ ¬ (ks = 0 ∧ vs = 0) ∧
        (2 ^ 64 ≤ ks + vs + LOG_CRC_SIZE ∨
          LogRecordType.fromU8 ((readPad file off logRecordMaxSize).headD 0) = none))) ∧
    (∀ e : Errors, readLogRecord file off = some (.error e) →
      e = .ReadEOF ∨ e = .DatabaseFileCorrupted) := by
  rcases hd1 : decodeVarint ((readPad file off logRecordMaxSize).drop 1) with _ | ⟨ks, t⟩
  · have hres : readLogRecord file off = some (.error .DatabaseFileCorrupted) := by
      simp only [readLogRecord, hd1]
    refine ⟨?_, ?_, ?_, ?_, ?_⟩ <;> simp [hres]
  · rcases hd2 : decodeVarint t with _ | ⟨vs, u⟩
    · have hres : readLogRecord file off = some (.error .DatabaseFileCorrupted) := by
        simp only [readLogRecord, hd1, hd2]
      refine ⟨?_, ?_, ?_, ?_, ?_⟩ <;> simp [hres, hd2]
    · by_cases hz : ks = 0 ∧ vs = 0
      · obtain ⟨rfl, rfl⟩ := hz
        have hres : readLogRecord file off = some (.error .ReadEOF) := by
          simp only [readLogRecord, hd1, hd2]
          simp
        refine ⟨?_, ?_, ?_, ?_, ?_⟩ <;> simp [hres, hd2]
      · by_cases hov : 2 ^ 64 ≤ ks + vs + LOG_CRC_SIZE
        · have hres : readLogRecord file off = none := by
            simp only [readLogRecord, hd1, hd2, if_neg hz, if_pos hov]
          refine ⟨?_, ?_, ?_, ?_, ?_⟩
          · refine iff_of_false (by simp [hres]) ?_
            rintro ⟨t2, he, u2, he2⟩
            rw [Option.some.injEq, Prod.mk.injEq] at he
            obtain ⟨hks, ht⟩ := he
            subst ht
            rw [hd2, Option.some.injEq, Prod.mk.injEq] at he2
            exact hz ⟨hks, he2.1⟩
          · simp
          · intro ks2 t2 he hn
            rw [Option.some.injEq, Prod.mk.injEq] at he
            obtain ⟨hks, ht⟩ := he
            subst ht
            rw [hd2] at hn
            simp at hn
          · rw [hres]
            exact iff_of_true rfl ⟨ks, t, vs, u, rfl, hd2, hz, Or.inl hov⟩
          · simp [hres]
        · rcases hft : LogRecordType.fromU8 ((readPad file off logRecordMaxSize).headD 0)
            with _ | rt
          · have hres : readLogRecord file off = none := by
              simp only [readLogRecord, hd1, hd2, if_neg hz, if_neg hov, hft]
            refine ⟨?_, ?_, ?_, ?_, ?_⟩
            · refine iff_of_false (by simp [hres]) ?_
              rintro ⟨t2, he, u2, he2⟩
              rw [Option.some.injEq, Prod.mk.injEq] at he
              obtain ⟨hks, ht⟩ := he
              subst ht
              rw [hd2, Option.some.injEq, Prod.mk.injEq] at he2
              exact hz ⟨hks, he2.1⟩
            · simp
            · intro ks2 t2 he hn
              rw [Option.some.injEq, Prod.mk.injEq] at he
              obtain ⟨hks, ht⟩ := he
              subst ht
              rw [hd2] at hn
              simp at hn
            · rw [hres]
              exact iff_of_true rfl ⟨ks, t, vs, u, rfl, hd2, hz, Or.inr rfl⟩
            · simp [hres]
          · have hrt : readLogRecord file off = some (.error .DatabaseFileCorrupted) ∨
                ∃ rr, readLogRecord file off = some (.ok rr) := by
              have hzz : readLogRecord file off = readLogRecord file off := rfl
              conv at hzz =>
                lhs
                simp only [readLogRecord, hd1, hd2, if_neg hz, if_neg hov, hft]
              split at hzz
              · exact Or.inl hzz.symm
              · exact Or.inr ⟨_, hzz.symm⟩
            have hne2 : readLogRecord file off ≠ none := by
              rcases hrt with h2 | ⟨rr, h2⟩ <;> simp [h2]
            have heo : ¬ readLogRecord file off = some (.error .ReadEOF) := by
              intro h
              rcases hrt with h2 | ⟨rr, h2⟩ <;> rw [h] at h2 <;> simp at h2
            refine ⟨?_, ?_, ?_, ?_, ?_⟩
            · refine iff_of_false heo ?_
              rintro ⟨t2, he, u2, he2⟩
              rw [Option.some.injEq, Prod.mk.injEq] at he
              obtain ⟨hks, ht⟩ := he
              subst ht
              rw [hd2, Option.some.injEq, Prod.mk.injEq] at he2
              exact hz ⟨hks, he2.1⟩
            · simp
            · intro ks2 t2 he hn
              rw [Option.some.injEq, Prod.mk.injEq] at he
              obtain ⟨hks, ht⟩ := he
              subst ht
              rw [hd2] at hn
              simp at hn
            · refine iff_of_false hne2 ?_
              rintro ⟨ks2, t2, vs2, u2, he, he2, hz2, hor⟩
              rw [Option.some.injEq, Prod.mk.injEq] at he
              obtain ⟨hks, ht⟩ := he
              subst ht
              rw [hd2, Option.some.injEq, Prod.mk.injEq] at he2
              obtain ⟨hvs, _⟩ := he2
              rcases hor with h | h
              · rw [← hks, ← hvs] at h
                exact hov h
              · exact Option.noConfusion h
            · intro e he
              rcases hrt with h2 | ⟨rr, h2⟩
              · rw [he, Option.some.injEq, Except.error.injEq] at h2
                exact Or.inr h2
              · rw [he] at h2
                simp at h2

/-- C4 (amended): `DataFile::read_log_record` over arbitrary on-disk
byte contents returns `Err(ReadEOF)` exactly when both decoded sizes
are zero, returns `Err(DatabaseFileCorrupted)` on malformed varints
(and on CRC mismatch), and `ReadEOF` / `DatabaseFileCorrupted` are the
only error kinds it ever returns — but it is not total: it panics
(`none`) exactly when both sizes decode, are not both zero, and either
`key_size + value_size + LOG_CRC_SIZE` overflows the 64-bit `usize`
(debug: overflow panic at the addition; release: the wrapped buffer
length makes one of the `kv_buffer.get(..).unwrap()` slice reads fail —
so a valid type byte does not prevent the panic) or the type byte is
outside {1, 2} (`LogRecordType::from_u8` hits `unreachable!()`).
Neither panic returns `DatabaseFileCorrupted`. (A debug build would
additionally panic in the 21-byte-wide band where only the
header-included size sum overflows; the model and this statement follow
the release build, which wraps that sum into the returned size.) -/
theorem claimC4_read_log_record_total (file : List Nat) (off : Nat) :
    (readLogRecord file off = some (.error .ReadEOF) ↔
      (∃ t, decodeVarint ((readPad file off logRecordMaxSize).drop 1) = some (0, t) ∧
        ∃ u, decodeVarint t = some (0, u))) ∧
    (decodeVarint ((readPad file off logRecordMaxSize).drop 1) = none →
      readLogRecord file off = some (.error .DatabaseFileCorrupted)) ∧
    (∀ ks t, decodeVarint ((readPad file off logRecordMaxSize).drop 1) = some (ks, t) →
      decodeVarint t = none →
      readLogRecord file off = some (.error .DatabaseFileCorrupted)) ∧
    (readLogRecord file off = none ↔
      (∃ ks t vs u, decodeVarint ((readPad file off logRecordMaxSize).drop 1) = some (ks, t) ∧
        decodeVarint t = some (vs, u) ∧ ¬ (ks = 0 ∧ vs = 0) ∧
        (2 ^ 64 ≤ ks + vs + LOG_CRC_SIZE ∨
          LogRecordType.fromU8 ((readPad file off logRecordMaxSize).headD 0) = none))) ∧
    (∀ e : Errors, readLogRecord file off = some (.error e) →
      e = .ReadEOF ∨ e = .DatabaseFileCorrupted) :=
  readLogRecord_classify file off

/-- C4 counterexample, refuting the claimed totality twice over. On the
file bytes `[3, 1, 1]` (type byte 3, key size 1, value size 1)
`read_log_record` panics (`none`) rather than returning
`DatabaseFileCorrupted`. And on
`[1, FF, FF, FF, FF, FF, FF, FF, FF, FF, 1, 0]` — a *valid* type
byte 1 with key size `u64::MAX` (a well-formed 10-byte varint) and
value size 0 — it also panics: `u64::MAX + 0 + LOG_CRC_SIZE` overflows
`usize`, so a debug build dies at the addition and a release build at
`kv_buffer.get(..key_size).unwrap()` on the wrapped 3-byte buffer. -/
theorem claimC4_counterexample :
    (readLogRecord [3, 1, 1] 0 = none ∧
      readLogRecord [3, 1, 1] 0 ≠ some (.error .DatabaseFileCorrupted)) ∧
    (readLogRecord [1, 255, 255, 255, 255, 255, 255, 255, 255, 255, 1, 0] 0 = none ∧
      LogRecordType.fromU8 1 = some .NORAML ∧
      decodeVarint ((readPad [1, 255, 255, 255, 255, 255, 255, 255, 255, 255, 1, 0] 0
          logRecordMaxSize).drop 1) =
        some (2 ^ 64 - 1, [0, 0, 0, 0])) := by
  decide

/-- C4 witness: a malformed varint (15 continuation bytes) makes the
read fail with `DatabaseFileCorrupted`. -/
theorem claimC4_witness :
    decodeVarint ((readPad (List.replicate 15 255) 0 logRecordMaxSize).drop 1) = none ∧
      readLogRecord (List.replicate 15 255) 0 = some (.error .DatabaseFileCorrupted) :=
  ⟨by decide, (claimC4_read_log_record_total (List.replicate 15 255) 0).2.1 (by decide)⟩

/-- C9: codec round trip. `encode` lays a record out as
`[type byte] [key_size varint] [value_size varint] [key] [value]`
followed by the little-endian CRC-32 of everything before it, and
reading the encoding back at the offset where it was written returns
the record together with the encoding's length (sizes bounded by
`u32::MAX` as in the source's header layout, and not both zero so the
read is not taken for end-of-file). -/
theorem claimC9_codec_round_trip (r : LogRecord) (pre suffixBytes : List Nat)
    (hk : r.key.length < 2 ^ 32) (hv : r.value.length < 2 ^ 32)
    (hnz : 0 < r.key.length + r.value.length) :
    r.encode = (r.recordType.toU8 ::
        (varintEncode r.key.length ++ varintEncode r.value.length ++ r.key ++ r.value)) ++
      le32Encode (crc32 (r.recordType.toU8 ::
        (varintEncode r.key.length ++ varintEncode r.value.length ++ r.key ++ r.value))) ∧
    readLogRecord (pre ++ r.encode ++ suffixBytes) pre.length =
      some (.ok { record := r, size := r.encode.length }) :=
  ⟨rfl, readLogRecord_encode r pre suffixBytes hk hv hnz⟩

/-- C9 witness: the round trip evaluated on a concrete one-byte-key,
one-byte-value record embedded between junk bytes. -/
theorem claimC9_witness :
    (((⟨[107], [118], .NORAML⟩ : LogRecord).key.length < 2 ^ 32) ∧
      ((⟨[107], [118], .NORAML⟩ : LogRecord).value.length < 2 ^ 32) ∧
      0 < (⟨[107], [118], .NORAML⟩ : LogRecord).key.length +
        (⟨[107], [118], .NORAML⟩ : LogRecord).value.length) ∧
    readLogRecord ([9] ++ (⟨[107], [118], .NORAML⟩ : LogRecord).encode ++ [7])
        [9].length =
      some (.ok { record := (⟨[107], [118], .NORAML⟩ : LogRecord)
                  size := (⟨[107], [118], .NORAML⟩ : LogRecord).encode.length }) :=
  ⟨⟨by decide, by decide, by decide⟩,
    (claimC9_codec_round_trip ⟨[107], [118], .NORAML⟩ [9] [7]
      (by decide) (by decide) (by decide)).2⟩

end Codec

namespace Db

/-- Parsing inverts framing (for session strings and sequence ids in
the engine's actual range). -/
theorem logRecordKeyParse_withSequence (key p : List Nat) (seqId : Nat)
    (hp : p.length < 2 ^ 32) (hs : seqId < 2 ^ 32) :
    logRecordKeyParse (logRecordKeyWithSequence key p seqId) =
      some (.ok { pfx := p, seqId := seqId, key := key }) := by
  have h1 : decodeVarint (varintEncode p.length ++ (p ++ (varintEncode seqId ++ key))) =
      some (p.length, p ++ (varintEncode seqId ++ key)) := decodeVarint_encode _ _ hp
  have h2 : decodeVarint (varintEncode seqId ++ key) = some (seqId, key) :=
    decodeVarint_encode _ _ hs
  have hdrop : (p ++ (varintEncode seqId ++ key)).drop p.length =
      varintEncode seqId ++ key := List.drop_left _ _
  have htake : (p ++ (varintEncode seqId ++ key)).take p.length = p := List.take_left _ _
  have hlen : ¬ p.length > (p ++ (varintEncode seqId ++ key)).length := by
    simp
  simp only [logRecordKeyWithSequence, logRecordKeyParse, List.append_assoc, h1,
    if_neg hlen, hdrop, h2, htake]

/-- C5 (amended): after a successful append the active segment's write
cursor stays within the configured threshold provided the single
record's encoding itself fits in a segment (an oversized record still
lands in a fresh segment whose cursor then exceeds the threshold, which
is the counterexample to the claim as stated); and whenever the
prospective append would push the cursor past the threshold, the
current active segment is sealed into the immutable map and a fresh
active segment with the next file id is installed before the record is
written at offset 0 of that new segment. Without rotation the record is
written at the current cursor of the unchanged active segment. -/
theorem claimC5_rotation_threshold (datafileSize : Nat) (st : AppendState)
    (record : LogRecord)
    (hlen : record.encode.length ≤ datafileSize) :
    (appendLogRecord datafileSize st record).1.activeOffset ≤ datafileSize ∧
    (st.activeOffset + record.encode.length > datafileSize →
      (appendLogRecord datafileSize st record).1.activeFileId = st.activeFileId + 1 ∧
      (appendLogRecord datafileSize st record).2 =
        { fileId := st.activeFileId + 1, offset := 0 } ∧
      (st.activeFileId, st.activeOffset) ∈
        (appendLogRecord datafileSize st record).1.oldFiles) ∧
    (¬ st.activeOffset + record.encode.length > datafileSize →
      (appendLogRecord datafileSize st record).1 =
        { st with activeOffset := st.activeOffset + record.encode.length } ∧
      (appendLogRecord datafileSize st record).2 =
        { fileId := st.activeFileId, offset := st.activeOffset }) := by
  by_cases hrot : st.activeOffset + record.encode.length > datafileSize
  · refine ⟨?_, fun _ => ⟨?_, ?_, ?_⟩, fun hc => absurd hrot hc⟩ <;>
      simp [appendLogRecord, if_pos hrot]
    omega
  · refine ⟨?_, fun hc => absurd hc hrot, fun _ => ⟨?_, ?_⟩⟩ <;>
      simp [appendLogRecord, if_neg hrot]
    omega

/-- C5 counterexample: with threshold 1, appending a record whose
encoding is 8 bytes leaves the (freshly rotated) active segment's
cursor at 8, exceeding the threshold after a successful append. -/
theorem claimC5_counterexample :
    (appendLogRecord 1 { activeFileId := 0, activeOffset := 0, oldFiles := [] }
      { key := [0], value := [], recordType := .Normal }).1.activeOffset > 1 := by
  decide

/-- C5 witness: threshold 100, cursor 95, 8-byte record: rotation keeps
the cursor within the threshold. -/
theorem claimC5_witness :
    ({ key := [0], value := [], recordType := .Normal } : LogRecord).encode.length ≤ 100 ∧
    (appendLogRecord 100 { activeFileId := 0, activeOffset := 95, oldFiles := [] }
      { key := [0], value := [], recordType := .Normal }).1.activeOffset ≤ 100 :=
  ⟨by decide,
    (claimC5_rotation_threshold 100 { activeFileId := 0, activeOffset := 95, oldFiles := [] }
      { key := [0], value := [], recordType := .Normal } (by decide)).1⟩

/-- C8: semantics of `Engine::get`. On an engine state whose keydir
locations all read back successfully (as every location installed by
`put`, commit or replay does), `get` rejects the empty key with
`EmptyKey`; for a non-empty key it returns `KeyNotFound` exactly when
the keydir has no mapping or the record stored at the mapped location
has type `Deleted`; and in every other successful case it returns the
value bytes of the record at the mapped location. -/
theorem claimC8_get_semantics (eng : EngineView) (key : List Nat)
    (hwf : ∀ pos, kdGet eng.keydir key = some pos →
      ∃ bytes rr, fileLookup eng.files pos.fileId = some bytes ∧
        Codec.readLogRecord bytes pos.offset = some (.ok rr)) :
    (key = [] → eng.get key = some (.error .EmptyKey)) ∧
    (key ≠ [] →
      (eng.get key = some (.error .KeyNotFound) ↔
        kdGet eng.keydir key = none ∨
          ∃ pos bytes rr, kdGet eng.keydir key = some pos ∧
            fileLookup eng.files pos.fileId = some bytes ∧
            Codec.readLogRecord bytes pos.offset = some (.ok rr) ∧
            rr.record.recordType = Codec.LogRecordType.DELETED)) ∧
    (∀ pos bytes rr, key ≠ [] → kdGet eng.keydir key = some pos →
      fileLookup eng.files pos.fileId = some bytes →
      Codec.readLogRecord bytes pos.offset = some (.ok rr) →
      rr.record.recordType ≠ Codec.LogRecordType.DELETED →
      eng.get key = some (.ok rr.record.value)) := by
  by_cases hke : key = []
  · refine ⟨fun _ => by simp [EngineView.get, hke], fun hne => absurd hke hne,
      fun _ _ _ hne => absurd hke hne⟩
  · rcases hkd : kdGet eng.keydir key with _ | pos
    · have hres : eng.get key = some (.error .KeyNotFound) := by
        simp only [EngineView.get, if_neg hke, hkd]
      refine ⟨fun hc => absurd hc hke, fun _ => ?_, ?_⟩
      · rw [hres]
        simp
      · intro pos bytes rr _ hp
        cases hp
    · obtain ⟨bytes, rr, hfl, hrd⟩ := hwf pos hkd
      by_cases hdel : rr.record.recordType = Codec.LogRecordType.DELETED
      · have hres : eng.get key = some (.error .KeyNotFound) := by
          simp only [EngineView.get, if_neg hke, hkd, hfl, hrd, if_pos hdel]
        refine ⟨fun hc => absurd hc hke, fun _ => ?_, ?_⟩
        · rw [hres]
          exact iff_of_true rfl (Or.inr ⟨pos, bytes, rr, rfl, hfl, hrd, hdel⟩)
        · intro pos2 bytes2 rr2 _ hp hf hr hd
          injection hp with hp
          subst hp
          rw [hfl] at hf
          injection hf with hf
          subst hf
          rw [hrd] at hr
          injection hr with hr
          injection hr with hr
          subst hr
          exact absurd hdel hd
      · have hres : eng.get key = some (.ok rr.record.value) := by
          simp only [EngineView.get, if_neg hke, hkd, hfl, hrd, if_neg hdel]
        refine ⟨fun hc => absurd hc hke, fun _ => ?_, ?_⟩
        · rw [hres]
          constructor
          · intro h
            cases h
          · rintro (h | ⟨pos2, bytes2, rr2, hp, hf, hr, hd⟩)
            · cases h
            · injection hp with hp
              subst hp
              rw [hfl] at hf
              injection hf with hf
              subst hf
              rw [hrd] at hr
              injection hr with hr
              injection hr with hr
              subst hr
              exact absurd hd hdel
        · intro pos2 bytes2 rr2 _ hp hf hr _
          injection hp with hp
          subst hp
          rw [hfl] at hf
          injection hf with hf
          subst hf
          rw [hrd] at hr
          injection hr with hr
          injection hr with hr
          subst hr
          exact hres

/-- C8 witness: a one-record engine state: the key maps to the
record's location and `get` returns its value bytes. -/
theorem claimC8_witness :
    (∀ pos, kdGet [([1], { fileId := 0, offset := 0 })] [1] = some pos →
      ∃ bytes rr,
        fileLookup [(0, (⟨[1], [9], .NORAML⟩ : Codec.LogRecord).encode)] pos.fileId =
          some bytes ∧
        Codec.readLogRecord bytes pos.offset = some (.ok rr)) ∧
    EngineView.get
        { keydir := [([1], { fileId := 0, offset := 0 })]
          files := [(0, (⟨[1], [9], .NORAML⟩ : Codec.LogRecord).encode)] } [1] =
      some (.ok [9]) := by
  have hwf : ∀ pos, kdGet [([1], { fileId := 0, offset := 0 })] [1] = some pos →
      ∃ bytes rr,
        fileLookup [(0, (⟨[1], [9], .NORAML⟩ : Codec.LogRecord).encode)] pos.fileId =
          some bytes ∧
        Codec.readLogRecord bytes pos.offset = some (.ok rr) := by
    intro pos hp
    have heval : kdGet [([1], { fileId := 0, offset := 0 })] [1] =
        some { fileId := 0, offset := 0 } := by decide
    rw [heval] at hp
    injection hp with hp
    subst hp
    exact ⟨(⟨[1], [9], .NORAML⟩ : Codec.LogRecord).encode,
      ⟨⟨[1], [9], .NORAML⟩, 9⟩, by decide, by decide⟩
  refine ⟨hwf, ?_⟩
  exact (claimC8_get_semantics
      { keydir := [([1], { fileId := 0, offset := 0 })]
        files := [(0, (⟨[1], [9], .NORAML⟩ : Codec.LogRecord).encode)] } [1] hwf).2.2
    { fileId := 0, offset := 0 } (⟨[1], [9], .NORAML⟩ : Codec.LogRecord).encode
    ⟨⟨[1], [9], .NORAML⟩, 9⟩ (by decide) (by decide) (by decide) (by decide) (by decide)

/-- C6 (amended): behaviour of `WriteBatch::delete(k)` for non-empty
`k`. A staged pending put for `k` is dropped, and a tombstone replaces
it only when the engine currently sees `k` live. But when `k` is not
staged at all, `entry(..).or_insert` stages a tombstone regardless of
engine liveness: in particular when `k` is neither staged nor visible
through the engine, `delete(k)` succeeds and leaves a staged tombstone
for `k` (so a subsequent commit writes a tombstone record for `k`),
not an empty slot. A staged tombstone is left unchanged, and engine
errors other than `KeyNotFound` propagate. -/
theorem claimC6_batch_delete_staging (eng : Engine)
    (staging : List (List Nat × LogRecord)) (key : List Nat) (hk : key ≠ []) :
    (∀ e, eng.getModel key = .error e → e ≠ .KeyNotFound →
      WriteBatch.deleteStage eng staging key = .error e) ∧
    (∀ r v, mapLookup staging key = some r → r.recordType = .Normal →
      eng.getModel key = .ok v →
      WriteBatch.deleteStage eng staging key =
        .ok (mapInsert (mapRemove staging key) key
          { key := key, value := [], recordType := .Deleted })) ∧
    (∀ r, mapLookup staging key = some r → r.recordType = .Normal →
      eng.getModel key = .error .KeyNotFound →
      WriteBatch.deleteStage eng staging key = .ok (mapRemove staging key)) ∧
    (∀ r, mapLookup staging key = some r → r.recordType ≠ .Normal →
      (eng.getModel key = .error .KeyNotFound ∨ ∃ v, eng.getModel key = .ok v) →
      WriteBatch.deleteStage eng staging key = .ok staging) ∧
    (mapLookup staging key = none →
      (eng.getModel key = .error .KeyNotFound ∨ ∃ v, eng.getModel key = .ok v) →
      WriteBatch.deleteStage eng staging key =
        .ok (mapInsert staging key { key := key, value := [], recordType := .Deleted })) := by
  refine ⟨?_, ?_, ?_, ?_, ?_⟩
  · intro e h hne
    simp only [WriteBatch.deleteStage, if_neg hk, h]
    rw [if_neg hne]
  · intro r v hlook hnorm hlive
    simp only [WriteBatch.deleteStage, if_neg hk, hlive, deleteStageEntry, hlook,
      if_pos hnorm]
    simp
  · intro r hlook hnorm hdead
    simp only [WriteBatch.deleteStage, if_neg hk, hdead, if_pos rfl, deleteStageEntry,
      hlook, if_pos hnorm]
    rfl
  · rintro r hlook hnn (hdead | ⟨v, hlive⟩)
    · simp only [WriteBatch.deleteStage, if_neg hk, hdead, deleteStageEntry,
        hlook, if_neg hnn]
      simp
    · simp only [WriteBatch.deleteStage, if_neg hk, hlive, deleteStageEntry, hlook,
        if_neg hnn]
  · rintro hlook (hdead | ⟨v, hlive⟩)
    · simp only [WriteBatch.deleteStage, if_neg hk, hdead, deleteStageEntry,
        hlook]
      simp
    · simp only [WriteBatch.deleteStage, if_neg hk, hlive, deleteStageEntry, hlook]

/-- C6 counterexample: on an empty engine and empty staging map,
`WriteBatch::delete([1])` succeeds and leaves a staged tombstone for
`[1]` — not, as the claim states, no entry — so the following commit
writes a tombstone for a key that was never live. -/
theorem claimC6_counterexample :
    WriteBatch.deleteStage
        { keydir := [], st := { activeFileId := 0, activeOffset := 0, oldFiles := [] }
          journal := [], batchPfx := [42], batchCommitId := 1, datafileSize := 1000000 }
        [] [1] =
      .ok [([1], { key := [1], value := [], recordType := .Deleted })] ∧
    mapLookup [([1], { key := [1], value := [], recordType := .Deleted })] [1] ≠ none := by
  decide

/-- C6 witness: the amended absent-and-not-live case evaluated on the
empty engine. -/
theorem claimC6_witness :
    ([1] ≠ ([] : List Nat)) ∧
    WriteBatch.deleteStage
        { keydir := [], st := { activeFileId := 0, activeOffset := 0, oldFiles := [] }
          journal := [], batchPfx := [42], batchCommitId := 1, datafileSize := 1000000 }
        [] [1] =
      .ok (mapInsert [] [1] { key := [1], value := [], recordType := .Deleted }) :=
  ⟨by decide,
    (claimC6_batch_delete_staging
        { keydir := [], st := { activeFileId := 0, activeOffset := 0, oldFiles := [] }
          journal := [], batchPfx := [42], batchCommitId := 1, datafileSize := 1000000 }
        [] [1] (by decide)).2.2.2.2 (by decide) (Or.inl (by decide))⟩

/-- C10 (amended): the record `WriteBatch::commit` appends last (for a
non-empty, size-respecting batch) has type `BatchCommit`, an empty
value, and a framed key carrying the batch's session bytes and
sequence id followed by the sentinel user key — which is the 14-byte
string "txn_fin_prefix" (the value of the `TXN_FIN_PREFIX` constant),
not "txn_fin" as the claim states. -/
theorem claimC10_terminator_record (eng : Engine)
    (staging : List (List Nat × LogRecord)) (maxBatchSize : Nat)
    (hne : staging ≠ []) (hsz : ¬ staging.length > maxBatchSize)
    (hp : eng.batchPfx.length < 2 ^ 32) (hs : eng.batchCommitId < 2 ^ 32) :
    (WriteBatch.commit eng staging maxBatchSize).map
        (fun x => x.1.journal.getLast?.map
          (fun rp => (rp.1.recordType, rp.1.value, rp.1.key))) =
      .ok (some (.BatchCommit, ([] : List Nat),
        logRecordKeyWithSequence TXN_FIN eng.batchPfx eng.batchCommitId)) ∧
    logRecordKeyParse (logRecordKeyWithSequence TXN_FIN eng.batchPfx eng.batchCommitId) =
      some (.ok { pfx := eng.batchPfx, seqId := eng.batchCommitId, key := TXN_FIN }) := by
  constructor
  · simp only [WriteBatch.commit, if_neg hne, if_neg hsz, Except.map,
      List.getLast?_concat]
    rfl
  · exact logRecordKeyParse_withSequence TXN_FIN eng.batchPfx eng.batchCommitId hp hs

/-- C10 counterexample: a concrete one-entry commit; the terminator's
framed key parses back to the sentinel user key "txn_fin_prefix"
(14 bytes), which differs from the bytes of "txn_fin". -/
theorem claimC10_counterexample :
    (WriteBatch.commit
        { keydir := [], st := { activeFileId := 0, activeOffset := 0, oldFiles := [] }
          journal := [], batchPfx := [42], batchCommitId := 1, datafileSize := 1000000 }
        [([1], { key := [1], value := [5], recordType := .Normal })] 10000).map
        (fun x => x.1.journal.getLast?.map (fun rp => logRecordKeyParse rp.1.key)) =
      .ok (some (some (.ok { pfx := [42], seqId := 1, key := TXN_FIN }))) ∧
    TXN_FIN ≠ [116, 120, 110, 95, 102, 105, 110] := by
  decide

/-- C10 witness: the amended terminator shape evaluated on the same
concrete commit. -/
theorem claimC10_witness :
    ([([1], { key := [1], value := [5], recordType := .Normal })] ≠
        ([] : List (List Nat × LogRecord))) ∧
    (WriteBatch.commit
        { keydir := [], st := { activeFileId := 0, activeOffset := 0, oldFiles := [] }
          journal := [], batchPfx := [42], batchCommitId := 1, datafileSize := 1000000 }
        [([1], { key := [1], value := [5], recordType := .Normal })] 10000).map
        (fun x => x.1.journal.getLast?.map
          (fun rp => (rp.1.recordType, rp.1.value, rp.1.key))) =
      .ok (some (.BatchCommit, ([] : List Nat),
        logRecordKeyWithSequence TXN_FIN [42] 1)) :=
  ⟨by decide,
    (claimC10_terminator_record
        { keydir := [], st := { activeFileId := 0, activeOffset := 0, oldFiles := [] }
          journal := [], batchPfx := [42], batchCommitId := 1, datafileSize := 1000000 }
        [([1], { key := [1], value := [5], recordType := .Normal })] 10000
        (by decide) (by decide) (by decide) (by decide)).1⟩

theorem commitFold_spec (p : List Nat) (s : Nat) :
    ∀ (staging : List (List Nat × LogRecord)) (acc : Engine × List (LogRecordPos × List Nat)),
      ((staging.foldl (commitStep p s) acc).2).map Prod.snd =
        acc.2.map Prod.snd ++ staging.map (fun e => e.2.key) ∧
      (staging.foldl (commitStep p s) acc).1.keydir = acc.1.keydir := by
  intro staging
  induction staging with
  | nil => intro acc; simp
  | cons e rest ih =>
    intro acc
    rw [List.foldl_cons]
    obtain ⟨h1, h2⟩ := ih (commitStep p s acc e)
    refine ⟨?_, by rw [h2]; rfl⟩
    rw [h1]
    simp [commitStep]

/-- C1 (amended): when `WriteBatch::commit` succeeds on a non-empty
batch (staged user keys are distinct, as the `HashMap` staging
guarantees), it applies every staged entry to the keydir with
`indexer.put(user_key, loc)` — for staged `Deleted` entries as well as
`Normal` ones. So after commit every staged key, tombstoned keys
included, is mapped in the keydir to the location of that entry's
appended member record; a staged `Deleted` entry does not remove the
key from the keydir (reads still report `KeyNotFound` because the
record at the mapped location has type `Deleted`). -/
theorem claimC1_commit_keydir (eng : Engine) (staging : List (List Nat × LogRecord))
    (maxBatchSize : Nat) (hne : staging ≠ []) (hsz : ¬ staging.length > maxBatchSize)
    (hdist : (staging.map (fun e => e.2.key)).Pairwise (· ≠ ·)) :
    ∃ eng2 posMap,
      WriteBatch.commit eng staging maxBatchSize = .ok (eng2, posMap) ∧
      posMap.map Prod.snd = staging.map (fun e => e.2.key) ∧
      (∀ pk ∈ posMap, kdGet eng2.keydir pk.2 = some pk.1) ∧
      (∀ e ∈ staging, ∃ pos, (pos, e.2.key) ∈ posMap ∧
        kdGet eng2.keydir e.2.key = some pos) := by
  obtain ⟨hmap, hkd⟩ :=
    commitFold_spec eng.batchPfx eng.batchCommitId staging (eng, [])
  simp only [List.map_nil, List.nil_append] at hmap
  simp only [WriteBatch.commit, if_neg hne, if_neg hsz]
  refine ⟨_, _, rfl, ?_, ?_, ?_⟩
  · exact hmap
  · intro pk hpk
    show kdGet
        ((staging.foldl (commitStep eng.batchPfx eng.batchCommitId) (eng, [])).2.foldl
          (fun kd pk => kdPut kd pk.2 pk.1) _) pk.2 = some pk.1
    exact kdGet_foldl_put_mem _ _ (by rw [hmap]; exact hdist) pk hpk
  · intro e he
    have hkmem : e.2.key ∈
        ((staging.foldl (commitStep eng.batchPfx eng.batchCommitId) (eng, [])).2).map
          Prod.snd := by
      rw [hmap]
      exact List.mem_map_of_mem _ he
    obtain ⟨pk, hpkmem, hpkk⟩ := List.mem_map.mp hkmem
    refine ⟨pk.1, ?_, ?_⟩
    · rw [show (pk.1, e.2.key) = pk from by rw [← hpkk]]
      exact hpkmem
    · rw [← hpkk]
      show kdGet
          ((staging.foldl (commitStep eng.batchPfx eng.batchCommitId) (eng, [])).2.foldl
            (fun kd pk => kdPut kd pk.2 pk.1) _) pk.2 = some pk.1
      exact kdGet_foldl_put_mem _ _ (by rw [hmap]; exact hdist) pk hpkmem

/-- C1 counterexample: committing a batch whose only staged entry is a
tombstone for key `[7]` leaves the keydir mapping `[7]` to the
tombstone record's location — the claim's "the keydir holds no mapping
for that key after commit returns" fails. -/
theorem claimC1_counterexample :
    (WriteBatch.commit
        { keydir := [], st := { activeFileId := 0, activeOffset := 0, oldFiles := [] }
          journal := [], batchPfx := [42], batchCommitId := 1, datafileSize := 1000000 }
        [([7], { key := [7], value := [], recordType := .Deleted })] 10000).map
        (fun x => kdGet x.1.keydir [7]) =
      .ok (some { fileId := 0, offset := 0 }) ∧
    some { fileId := 0, offset := 0 } ≠ (none : Option LogRecordPos) := by
  decide

/-- C1 witness: the amended behaviour evaluated on that same one-entry
tombstone batch. -/
theorem claimC1_witness :
    ([([7], { key := [7], value := [], recordType := .Deleted })] ≠
        ([] : List (List Nat × LogRecord))) ∧
    ∃ eng2 posMap,
      WriteBatch.commit
          { keydir := [], st := { activeFileId := 0, activeOffset := 0, oldFiles := [] }
            journal := [], batchPfx := [42], batchCommitId := 1, datafileSize := 1000000 }
          [([7], { key := [7], value := [], recordType := .Deleted })] 10000 =
        .ok (eng2, posMap) ∧
      posMap.map Prod.snd =
        ([([7], { key := [7], value := [], recordType := LogRecordType.Deleted })] :
            List (List Nat × LogRecord)).map (fun e => e.2.key) ∧
      (∀ pk ∈ posMap, kdGet eng2.keydir pk.2 = some pk.1) ∧
      (∀ e ∈ ([([7], { key := [7], value := [], recordType := LogRecordType.Deleted })] :
          List (List Nat × LogRecord)),
        ∃ pos, (pos, e.2.key) ∈ posMap ∧ kdGet eng2.keydir e.2.key = some pos) :=
  ⟨by decide,
    claimC1_commit_keydir
      { keydir := [], st := { activeFileId := 0, activeOffset := 0, oldFiles := [] }
        journal := [], batchPfx := [42], batchCommitId := 1, datafileSize := 1000000 }
      [([7], { key := [7], value := [], recordType := .Deleted })] 10000
      (by decide) (by decide) (by simp)⟩

theorem pendLookup_push_self (p : Pending) (ps : List Nat × Nat) (e : PendingEntry) :
    pendLookup (pendPush p ps e) ps = some ((pendLookup p ps).getD [] ++ [e]) := by
  induction p with
  | nil => simp [pendPush, pendLookup]
  | cons hd rest ih =>
    obtain ⟨ps2, l⟩ := hd
    by_cases h : ps = ps2
    · subst h; simp [pendPush, pendLookup]
    · simp only [pendPush, if_neg h, pendLookup, ih]

theorem pendLookup_push_ne (p : Pending) (ps ps' : List Nat × Nat) (e : PendingEntry)
    (h : ps' ≠ ps) :
    pendLookup (pendPush p ps e) ps' = pendLookup p ps' := by
  induction p with
  | nil => simp [pendPush, pendLookup, h]
  | cons hd rest ih =>
    obtain ⟨ps2, l⟩ := hd
    by_cases h2 : ps = ps2
    · subst h2; simp [pendPush, pendLookup, h]
    · simp only [pendPush, if_neg h2, pendLookup]
      by_cases h3 : ps' = ps2
      · simp [h3]
      · simp [h3, ih]

theorem pendLookup_remove_self (p : Pending) (ps : List Nat × Nat) :
    pendLookup (pendRemove p ps) ps = none := by
  induction p with
  | nil => rfl
  | cons hd rest ih =>
    obtain ⟨ps2, l⟩ := hd
    by_cases h : ps = ps2
    · subst h; simp [pendRemove, ih]
    · simp [pendRemove, h, pendLookup, ih]

theorem pendLookup_remove_ne (p : Pending) (ps ps' : List Nat × Nat) (h : ps' ≠ ps) :
    pendLookup (pendRemove p ps) ps' = pendLookup p ps' := by
  induction p with
  | nil => rfl
  | cons hd rest ih =>
    obtain ⟨ps2, l⟩ := hd
    by_cases h2 : ps = ps2
    · subst h2; simp [pendRemove, pendLookup, h, ih]
    · simp only [pendRemove, if_neg h2, pendLookup]
      by_cases h3 : ps' = ps2
      · simp [h3]
      · simp [h3, ih]

theorem hasTerm_cons (r : ParsedRecord) (rest : List ParsedRecord) (ps : List Nat × Nat) :
    hasTerm (r :: rest) ps =
      (decide (r.rtype = .BatchCommit ∧ (r.pfx, r.seqId) = ps) || hasTerm rest ps) := by
  simp [hasTerm]

theorem replayGo_keepCommitted (R : List ParsedRecord) :
    ∀ (kd : Keydir) (p1 p2 : Pending),
      (∀ ps, hasTerm R ps = true → pendLookup p1 ps = pendLookup p2 ps) →
      (∃ e, replayGo (kd, p1) R = .error e ∧
        replayGo (kd, p2) (keepCommitted R) = .error e) ∨
      (∃ kd2 q1 q2, replayGo (kd, p1) R = .ok (kd2, q1) ∧
        replayGo (kd, p2) (keepCommitted R) = .ok (kd2, q2)) := by
  induction R with
  | nil =>
    intro kd p1 p2 _
    exact Or.inr ⟨kd, p1, p2, rfl, rfl⟩
  | cons r rest ih =>
    intro kd p1 p2 hagree
    have hrest : ∀ ps, hasTerm rest ps = true → pendLookup p1 ps = pendLookup p2 ps := by
      intro ps h
      exact hagree ps (by rw [hasTerm_cons]; simp [h])
    cases hty : r.rtype with
    | Normal =>
      by_cases hs : r.seqId = 0
      · have hkeep : keepCommitted (r :: rest) = r :: keepCommitted rest := by
          simp [keepCommitted, isMember, hs]
        have h1 : replayGo (kd, p1) (r :: rest) =
            replayGo (kdPut kd r.key r.pos, p1) rest := by
          simp [replayGo, replayStep, hty, hs]
        have h2 : replayGo (kd, p2) (r :: keepCommitted rest) =
            replayGo (kdPut kd r.key r.pos, p2) (keepCommitted rest) := by
          simp [replayGo, replayStep, hty, hs]
        rw [hkeep, h1, h2]
        exact ih (kdPut kd r.key r.pos) p1 p2 hrest
      · have hmem : isMember r = true := by simp [isMember, hs, hty]
        have h1 : replayGo (kd, p1) (r :: rest) =
            replayGo (kd, pendPush p1 (r.pfx, r.seqId) (r.key, r.pos, .Normal)) rest := by
          simp [replayGo, replayStep, hty, hs]
        by_cases hterm : hasTerm rest (r.pfx, r.seqId) = true
        · have hkeep : keepCommitted (r :: rest) = r :: keepCommitted rest := by
            simp [keepCommitted, hmem, hterm]
          have h2 : replayGo (kd, p2) (r :: keepCommitted rest) =
              replayGo (kd, pendPush p2 (r.pfx, r.seqId) (r.key, r.pos, .Normal))
                (keepCommitted rest) := by
            simp [replayGo, replayStep, hty, hs]
          rw [hkeep, h1, h2]
          refine ih kd _ _ ?_
          intro ps h
          by_cases hps : ps = (r.pfx, r.seqId)
          · subst hps
            rw [pendLookup_push_self, pendLookup_push_self,
              hagree _ (by rw [hasTerm_cons]; simp [h])]
          · rw [pendLookup_push_ne _ _ _ _ hps, pendLookup_push_ne _ _ _ _ hps]
            exact hrest ps h
        · have hterm' : hasTerm rest (r.pfx, r.seqId) = false := by
            simpa using hterm
          have hkeep : keepCommitted (r :: rest) = keepCommitted rest := by
            simp [keepCommitted, hmem, hterm']
          rw [hkeep, h1]
          refine ih kd _ _ ?_
          intro ps h
          have hps : ps ≠ (r.pfx, r.seqId) := by
            intro he; rw [he, hterm'] at h; simp at h
          rw [pendLookup_push_ne _ _ _ _ hps]
          exact hrest ps h
    | Deleted =>
      by_cases hs : r.seqId = 0
      · have hkeep : keepCommitted (r :: rest) = r :: keepCommitted rest := by
          simp [keepCommitted, isMember, hs]
        by_cases hk : (kdGet kd r.key).isSome
        · have h1 : replayGo (kd, p1) (r :: rest) =
              replayGo (kdDelete kd r.key, p1) rest := by
            simp [replayGo, replayStep, hty, hs, hk]
          have h2 : replayGo (kd, p2) (r :: keepCommitted rest) =
              replayGo (kdDelete kd r.key, p2) (keepCommitted rest) := by
            simp [replayGo, replayStep, hty, hs, hk]
          rw [hkeep, h1, h2]
          exact ih (kdDelete kd r.key) p1 p2 hrest
        · refine Or.inl ⟨.FailToUpdateIndex, ?_, ?_⟩
          · simp [replayGo, replayStep, hty, hs, hk]
          · rw [hkeep]; simp [replayGo, replayStep, hty, hs, hk]
      · have hmem : isMember r = true := by simp [isMember, hs, hty]
        have h1 : replayGo (kd, p1) (r :: rest) =
            replayGo (kd, pendPush p1 (r.pfx, r.seqId) (r.key, r.pos, .Deleted)) rest := by
          simp [replayGo, replayStep, hty, hs]
        by_cases hterm : hasTerm rest (r.pfx, r.seqId) = true
        · have hkeep : keepCommitted (r :: rest) = r :: keepCommitted rest := by
            simp [keepCommitted, hmem, hterm]
          have h2 : replayGo (kd, p2) (r :: keepCommitted rest) =
              replayGo (kd, pendPush p2 (r.pfx, r.seqId) (r.key, r.pos, .Deleted))
                (keepCommitted rest) := by
            simp [replayGo, replayStep, hty, hs]
          rw [hkeep, h1, h2]
          refine ih kd _ _ ?_
          intro ps h
          by_cases hps : ps = (r.pfx, r.seqId)
          · subst hps
            rw [pendLookup_push_self, pendLookup_push_self,
              hagree _ (by rw [hasTerm_cons]; simp [h])]
          · rw [pendLookup_push_ne _ _ _ _ hps, pendLookup_push_ne _ _ _ _ hps]
            exact hrest ps h
        · have hterm' : hasTerm rest (r.pfx, r.seqId) = false := by
            simpa using hterm
          have hkeep : keepCommitted (r :: rest) = keepCommitted rest := by
            simp [keepCommitted, hmem, hterm']
          rw [hkeep, h1]
          refine ih kd _ _ ?_
          intro ps h
          have hps : ps ≠ (r.pfx, r.seqId) := by
            intro he; rw [he, hterm'] at h; simp at h
          rw [pendLookup_push_ne _ _ _ _ hps]
          exact hrest ps h
    | BatchCommit =>
      have hkeep : keepCommitted (r :: rest) = r :: keepCommitted rest := by
        simp [keepCommitted, isMember, hty]
      have hlk : pendLookup p1 (r.pfx, r.seqId) = pendLookup p2 (r.pfx, r.seqId) :=
        hagree _ (by rw [hasTerm_cons]; simp [hty])
      cases hlook : pendLookup p1 (r.pfx, r.seqId) with
      | none =>
        have hlook2 : pendLookup p2 (r.pfx, r.seqId) = none := hlk.symm.trans hlook
        refine Or.inl ⟨.DatabaseFileCorrupted, ?_, ?_⟩
        · simp [replayGo, replayStep, hty, hlook]
        · rw [hkeep]; simp [replayGo, replayStep, hty, hlook2]
      | some task =>
        have hlook2 : pendLookup p2 (r.pfx, r.seqId) = some task := hlk.symm.trans hlook
        have h1 : replayGo (kd, p1) (r :: rest) =
            replayGo (applyTask kd task, pendRemove p1 (r.pfx, r.seqId)) rest := by
          simp [replayGo, replayStep, hty, hlook]
        have h2 : replayGo (kd, p2) (r :: keepCommitted rest) =
            replayGo (applyTask kd task, pendRemove p2 (r.pfx, r.seqId))
              (keepCommitted rest) := by
          simp [replayGo, replayStep, hty, hlook2]
        rw [hkeep, h1, h2]
        refine ih (applyTask kd task) _ _ ?_
        intro ps h
        by_cases hps : ps = (r.pfx, r.seqId)
        · subst hps; rw [pendLookup_remove_self, pendLookup_remove_self]
        · rw [pendLookup_remove_ne _ _ _ hps, pendLookup_remove_ne _ _ _ hps]
          exact hrest ps h

theorem replayGo_pendLookup (R : List ParsedRecord) :
    ∀ (kd : Keydir) (p : Pending) (kd2 : Keydir) (pend : Pending),
      replayGo (kd, p) R = .ok (kd2, pend) →
      (∀ ps, pendLookup p ps ≠ some []) →
      ∀ ps, pendLookup pend ps = listToOpt (msAfterAux ps ((pendLookup p ps).getD []) R) := by
  induction R with
  | nil =>
    intro kd p kd2 pend h hne ps
    simp only [replayGo, Except.ok.injEq, Prod.mk.injEq] at h
    obtain ⟨h1, h2⟩ := h
    subst h1; subst h2
    simp only [msAfterAux]
    cases hl : pendLookup p ps with
    | none => rfl
    | some l =>
      cases l with
      | nil => exact absurd hl (hne ps)
      | cons a tl => rfl
  | cons r rest ih =>
    intro kd p kd2 pend h hne ps
    cases hty : r.rtype with
    | Normal =>
      by_cases hs : r.seqId = 0
      · have h' : replayGo (kdPut kd r.key r.pos, p) rest = .ok (kd2, pend) := by
          rw [← h]; simp [replayGo, replayStep, hty, hs]
        rw [ih (kdPut kd r.key r.pos) p kd2 pend h' hne ps]
        have hmsa : msAfterAux ps ((pendLookup p ps).getD []) (r :: rest) =
            msAfterAux ps ((pendLookup p ps).getD []) rest := by
          simp [msAfterAux, hty, isMember, hs]
        rw [hmsa]
      · have h' : replayGo (kd, pendPush p (r.pfx, r.seqId) (r.key, r.pos, .Normal)) rest
            = .ok (kd2, pend) := by
          rw [← h]; simp [replayGo, replayStep, hty, hs]
        have hne' : ∀ ps',
            pendLookup (pendPush p (r.pfx, r.seqId) (r.key, r.pos, .Normal)) ps'
              ≠ some [] := by
          intro ps'
          by_cases hp2 : ps' = (r.pfx, r.seqId)
          · subst hp2; rw [pendLookup_push_self]; simp
          · rw [pendLookup_push_ne _ _ _ _ hp2]; exact hne ps'
        rw [ih kd _ kd2 pend h' hne' ps]
        by_cases hps : (r.pfx, r.seqId) = ps
        · have hlp : pendLookup (pendPush p (r.pfx, r.seqId) (r.key, r.pos, .Normal)) ps
              = some ((pendLookup p ps).getD [] ++ [(r.key, r.pos, LogRecordType.Normal)]) := by
            rw [← hps]; exact pendLookup_push_self p _ _
          have hmem : isMember r = true := by simp [isMember, hs, hty]
          have hmsa : msAfterAux ps ((pendLookup p ps).getD []) (r :: rest) =
              msAfterAux ps ((pendLookup p ps).getD [] ++ [(r.key, r.pos, r.rtype)]) rest := by
            simp [msAfterAux, hty, hmem, hps]
          rw [hlp, hmsa, hty]
          simp
        · have hps' : ps ≠ (r.pfx, r.seqId) := fun he => hps he.symm
          rw [pendLookup_push_ne _ _ _ _ hps']
          have hmsa : msAfterAux ps ((pendLookup p ps).getD []) (r :: rest) =
              msAfterAux ps ((pendLookup p ps).getD []) rest := by
            simp [msAfterAux, hps]
          rw [hmsa]
    | Deleted =>
      by_cases hs : r.seqId = 0
      · by_cases hk : (kdGet kd r.key).isSome
        · have h' : replayGo (kdDelete kd r.key, p) rest = .ok (kd2, pend) := by
            rw [← h]; simp [replayGo, replayStep, hty, hs, hk]
          rw [ih (kdDelete kd r.key) p kd2 pend h' hne ps]
          have hmsa : msAfterAux ps ((pendLookup p ps).getD []) (r :: rest) =
              msAfterAux ps ((pendLookup p ps).getD []) rest := by
            simp [msAfterAux, hty, isMember, hs]
          rw [hmsa]
        · exfalso
          rw [show replayGo (kd, p) (r :: rest) = .error .FailToUpdateIndex from by
            simp [replayGo, replayStep, hty, hs, hk]] at h
          exact Except.noConfusion h
      · have h' : replayGo (kd, pendPush p (r.pfx, r.seqId) (r.key, r.pos, .Deleted)) rest
            = .ok (kd2, pend) := by
          rw [← h]; simp [replayGo, replayStep, hty, hs]
        have hne' : ∀ ps',
            pendLookup (pendPush p (r.pfx, r.seqId) (r.key, r.pos, .Deleted)) ps'
              ≠ some [] := by
          intro ps'
          by_cases hp2 : ps' = (r.pfx, r.seqId)
          · subst hp2; rw [pendLookup_push_self]; simp
          · rw [pendLookup_push_ne _ _ _ _ hp2]; exact hne ps'
        rw [ih kd _ kd2 pend h' hne' ps]
        by_cases hps : (r.pfx, r.seqId) = ps
        · have hlp : pendLookup (pendPush p (r.pfx, r.seqId) (r.key, r.pos, .Deleted)) ps
              = some ((pendLookup p ps).getD [] ++ [(r.key, r.pos, LogRecordType.Deleted)]) := by
            rw [← hps]; exact pendLookup_push_self p _ _
          have hmem : isMember r = true := by simp [isMember, hs, hty]
          have hmsa : msAfterAux ps ((pendLookup p ps).getD []) (r :: rest) =
              msAfterAux ps ((pendLookup p ps).getD [] ++ [(r.key, r.pos, r.rtype)]) rest := by
            simp [msAfterAux, hty, hmem, hps]
          rw [hlp, hmsa, hty]
          simp
        · have hps' : ps ≠ (r.pfx, r.seqId) := fun he => hps he.symm
          rw [pendLookup_push_ne _ _ _ _ hps']
          have hmsa : msAfterAux ps ((pendLookup p ps).getD []) (r :: rest) =
              msAfterAux ps ((pendLookup p ps).getD []) rest := by
            simp [msAfterAux, hps]
          rw [hmsa]
    | BatchCommit =>
      cases hlook : pendLookup p (r.pfx, r.seqId) with
      | none =>
        exfalso
        rw [show replayGo (kd, p) (r :: rest) = .error .DatabaseFileCorrupted from by
          simp [replayGo, replayStep, hty, hlook]] at h
        exact Except.noConfusion h
      | some task =>
        have h' : replayGo (applyTask kd task, pendRemove p (r.pfx, r.seqId)) rest
            = .ok (kd2, pend) := by
          rw [← h]; simp [replayGo, replayStep, hty, hlook]
        have hne' : ∀ ps', pendLookup (pendRemove p (r.pfx, r.seqId)) ps' ≠ some [] := by
          intro ps'
          by_cases hp2 : ps' = (r.pfx, r.seqId)
          · subst hp2; rw [pendLookup_remove_self]; simp
          · rw [pendLookup_remove_ne _ _ _ hp2]; exact hne ps'
        rw [ih _ _ kd2 pend h' hne' ps]
        by_cases hps : (r.pfx, r.seqId) = ps
        · rw [show pendLookup (pendRemove p (r.pfx, r.seqId)) ps = none from by
            rw [← hps]; exact pendLookup_remove_self p _]
          have hmsa : msAfterAux ps ((pendLookup p ps).getD []) (r :: rest) =
              msAfterAux ps [] rest := by
            simp [msAfterAux, hty, hps]
          rw [hmsa]
          rfl
        · have hps' : ps ≠ (r.pfx, r.seqId) := fun he => hps he.symm
          rw [pendLookup_remove_ne _ _ _ hps']
          have hmsa : msAfterAux ps ((pendLookup p ps).getD []) (r :: rest) =
              msAfterAux ps ((pendLookup p ps).getD []) rest := by
            simp [msAfterAux, hps]
          rw [hmsa]

/-- C2: batch atomicity across restart. When the recovery scan of the
parsed records succeeds with keydir `kd` and pending table `pend`,
(1) scanning the same log with every orphaned batch member removed —
a member is kept exactly when a terminator with its (session bytes,
sequence id) appears later in the scan — succeeds with the same keydir
`kd`, so orphaned members contribute nothing to the index and committed
members contribute exactly as recorded; and (2) the pending table left
at end of scan holds, for every (session bytes, sequence id), exactly
that batch's members occurring after its last terminator (its orphans),
in recorded order — which `Engine::open` then discards. -/
theorem claimC2_batch_atomicity (records : List ParsedRecord) (kd : Keydir)
    (pend : Pending) (h : replayScan records = .ok (kd, pend)) :
    (∃ pend2, replayScan (keepCommitted records) = .ok (kd, pend2)) ∧
    (∀ ps, pendLookup pend ps = listToOpt (msAfter records ps)) := by
  have h0 : replayGo (([] : Keydir), ([] : Pending)) records = .ok (kd, pend) := h
  constructor
  · rcases replayGo_keepCommitted records [] [] [] (fun _ _ => rfl) with
      ⟨e, h1, _⟩ | ⟨kd2, q1, q2, h1, h2⟩
    · rw [h1] at h0; exact Except.noConfusion h0
    · have h3 := h1.symm.trans h0
      simp only [Except.ok.injEq, Prod.mk.injEq] at h3
      obtain ⟨hkd, _⟩ := h3
      refine ⟨q2, ?_⟩
      show replayGo (([] : Keydir), ([] : Pending)) (keepCommitted records) = .ok (kd, q2)
      rw [← hkd]
      exact h2
  · intro ps
    have hch := replayGo_pendLookup records [] [] kd pend h0
      (fun ps' => by simp [pendLookup]) ps
    simpa [msAfter, pendLookup] using hch

/-- C2 witness: a log with one committed batch (session [1], id 1,
putting key [5]) followed by one orphaned member (session [2], id 3,
key [6]): the scan succeeds, the orphan-free scan yields the same
keydir, and the final pending table holds exactly the orphan. -/
theorem claimC2_witness :
    replayScan
        [⟨[1], 1, [5], .Normal, ⟨0, 0⟩⟩,
         ⟨[1], 1, [9, 9], .BatchCommit, ⟨0, 10⟩⟩,
         ⟨[2], 3, [6], .Normal, ⟨0, 20⟩⟩] =
      .ok ([([5], ⟨0, 0⟩)],
        [(([2], 3), [([6], ⟨0, 20⟩, .Normal)])]) ∧
    ((∃ pend2,
        replayScan (keepCommitted
          [⟨[1], 1, [5], .Normal, ⟨0, 0⟩⟩,
           ⟨[1], 1, [9, 9], .BatchCommit, ⟨0, 10⟩⟩,
           ⟨[2], 3, [6], .Normal, ⟨0, 20⟩⟩]) =
          .ok ([([5], ⟨0, 0⟩)], pend2)) ∧
      (∀ ps, pendLookup [(([2], 3), [([6], ⟨0, 20⟩, .Normal)])] ps =
        listToOpt (msAfter
          [⟨[1], 1, [5], .Normal, ⟨0, 0⟩⟩,
           ⟨[1], 1, [9, 9], .BatchCommit, ⟨0, 10⟩⟩,
           ⟨[2], 3, [6], .Normal, ⟨0, 20⟩⟩] ps))) :=
  ⟨by decide,
    claimC2_batch_atomicity
      [⟨[1], 1, [5], .Normal, ⟨0, 0⟩⟩,
       ⟨[1], 1, [9, 9], .BatchCommit, ⟨0, 10⟩⟩,
       ⟨[2], 3, [6], .Normal, ⟨0, 20⟩⟩]
      [([5], ⟨0, 0⟩)]
      [(([2], 3), [([6], ⟨0, 20⟩, .Normal)])]
      (by decide)⟩

/-- C3 (code bug): a crash-free run of successful operations whose
recovery fails. Starting from a fresh engine (session bytes [42], batch
counter 1), `put [1] [9]`, a write batch that deletes [1] (staged and
committed successfully — commit maps [1] to the tombstone member's
location, see C1), then `Engine::delete [1]` (which sees [1] mapped and
appends a non-batched tombstone) all return `ok`; but replaying the
journal these operations wrote fails with `FailToUpdateIndex`, because
the committed batch's tombstone removes [1] from the keydir before the
scan reaches the non-batched tombstone (src/db.rs lines 240–244), so
`Engine::open` on the resulting directory fails rather than succeeds. -/
theorem claimC3_crash_free_reopen :
    ((Engine.putOp
        { keydir := [], st := { activeFileId := 0, activeOffset := 0, oldFiles := [] },
          journal := [], batchPfx := [42], batchCommitId := 1, datafileSize := 1000000 }
        [1] [9] >>= fun eng1 =>
      WriteBatch.deleteStage eng1 [] [1] >>= fun staging1 =>
      WriteBatch.commit eng1 staging1 10000 >>= fun ec =>
      Engine.deleteOp ec.1 [1]).map
        (fun eng3 => loadIndexModel eng3.journal)) =
      .ok (some (.error .FailToUpdateIndex)) := by
  decide

end Db

end Bitcast
